import Mathlib

/-!
Verification development for the watershed / depression-filling engine
(`lib/util.py`, `lib/river_analysis.py`, `experiments/save_flow_accumulation.py`).

The raster is embedded as a flat row-major `List ℚ` of length `ny * nx`
(cell `(r, c)` lives at linear index `r * nx + c`, matching `map_2d_to_1d`).
Elevations are rationals: the Python floats carry small decimal values and all
comparisons performed by the code are order comparisons, which ℚ models exactly.

Slopes. The code compares quantities `delta / step` (cardinal neighbor) and
`delta / (step * sqrt 2)` (diagonal neighbor) — `get_derivatives` uses the real
step size, `get_steepest_spill_pair` hardcodes step 10 (`/10.0`, `/sqrt(200)`).
We represent such a quantity by its numerator together with its diagonal flag
(`Slope`), and compare two of them with the exact decision procedure
`slopeLtB`, proved below (`slopeLtB_iff_val_lt`) to agree with the real-valued
comparison for every positive step; in particular the comparison is the same
for the true step size and for the hardcoded 10.
-/

namespace WatershedV2

variable {α : Type} [LinearOrderedCommRing α]

/-- Flat row-major elevation raster.  The elevation type is any linearly
ordered commutative ring: claims are stated over `ℚ` (exact model of the
order comparisons the float code performs), concrete runs use `ℤ`. -/
abbrev Heights (α : Type) := List α

/-- Value of cell `(r, c)` in a raster with `nx` columns (`heights[r][c]`). -/
def hAt (h : Heights α) (nx r c : ℕ) : α := h.getD (r * nx + c) 0

/-- Value at a (possibly signed) linear index, used where the code indexes the
reshaped 1-d `heights` array with integer node indices. -/
def hAtZ (h : Heights α) (i : ℤ) : α := if 0 ≤ i then h.getD i.toNat 0 else 0

/-- `np.max` over a nonempty list (0 on the empty list, never used there). -/
def qmax : List α → α
  | [] => 0
  | [x] => x
  | x :: y :: t => max x (qmax (y :: t))

/-- `np.min` over a nonempty list (0 on the empty list, never used there). -/
def qmin : List α → α
  | [] => 0
  | [x] => x
  | x :: y :: t => min x (qmin (y :: t))

theorem qmax_lt_iff {l : List α} (hne : l ≠ []) (a : α) :
    qmax l < a ↔ ∀ x ∈ l, x < a := by
  induction l with
  | nil => simp at hne
  | cons x t ih =>
    cases t with
    | nil => simp [qmax]
    | cons y s =>
      simp only [qmax, max_lt_iff, List.mem_cons, forall_eq_or_imp]
      rw [ih (by simp)]
      simp

theorem le_qmin_iff {l : List α} (hne : l ≠ []) (a : α) :
    a ≤ qmin l ↔ ∀ x ∈ l, a ≤ x := by
  induction l with
  | nil => simp at hne
  | cons x t ih =>
    cases t with
    | nil => simp [qmin]
    | cons y s =>
      simp only [qmin, le_min_iff, List.mem_cons, forall_eq_or_imp]
      rw [ih (by simp)]
      simp

theorem qmin_mem {l : List α} (hne : l ≠ []) : qmin l ∈ l := by
  induction l with
  | nil => simp at hne
  | cons x t ih =>
    cases t with
    | nil => simp [qmin]
    | cons y s =>
      rcases min_cases x (qmin (y :: s)) with ⟨h, _⟩ | ⟨h, _⟩
      · simp [qmin, h]
      · simpa [qmin, h] using Or.inr (ih (by simp))

theorem qmin_le {l : List α} {x : α} (hx : x ∈ l) : qmin l ≤ x := by
  induction l with
  | nil => simp at hx
  | cons a t ih =>
    cases t with
    | nil => simp at hx; simp [qmin, hx]
    | cons y s =>
      rcases List.mem_cons.mp hx with rfl | hx
      · exact min_le_left _ _ |>.trans_eq rfl
      · exact le_trans (min_le_right _ _) (ih hx)

theorem qmax_mem {l : List α} (hne : l ≠ []) : qmax l ∈ l := by
  induction l with
  | nil => simp at hne
  | cons x t ih =>
    cases t with
    | nil => simp [qmax]
    | cons y s =>
      rcases max_cases x (qmax (y :: s)) with ⟨h, _⟩ | ⟨h, _⟩
      · simp [qmax, h]
      · simpa [qmax, h] using Or.inr (ih (by simp))

theorem le_qmax {l : List α} {x : α} (hx : x ∈ l) : x ≤ qmax l := by
  induction l with
  | nil => simp at hx
  | cons a t ih =>
    cases t with
    | nil => simp at hx; simp [qmax, hx]
    | cons y s =>
      rcases List.mem_cons.mp hx with rfl | hx
      · exact le_max_left _ _
      · exact le_trans (ih hx) (le_max_right _ _)

/-- A slope value `delta / dist`, where `dist` is the step size for a cardinal
neighbor pair (`diag = false`) and `step * sqrt 2` for a diagonal one
(`diag = true`).  Only the numerator and the flag are stored; comparisons are
exact (see `slopeLtB`). -/
structure Slope (α : Type) where
  delta : α
  diag : Bool
deriving DecidableEq, Repr

/-- The real value of a slope for a given positive step size. -/
noncomputable def slopeVal (step : ℝ) (s : Slope ℚ) : ℝ :=
  if s.diag then (s.delta : ℝ) / (step * Real.sqrt 2) else (s.delta : ℝ) / step

/-- Exact decision of `slopeVal step a < slopeVal step b` (any `step > 0`):
rational sign analysis plus squaring eliminates `sqrt 2`. -/
def slopeLtB (a b : Slope α) : Bool :=
  match a.diag, b.diag with
  | false, false => a.delta < b.delta
  | true, true => a.delta < b.delta
  | true, false =>
    -- a.delta / sqrt2 < b.delta  ⟺  a.delta < b.delta * sqrt2
    if a.delta < 0 then 0 ≤ b.delta ∨ a.delta ^ 2 > 2 * b.delta ^ 2
    else 0 < b.delta ∧ a.delta ^ 2 < 2 * b.delta ^ 2
  | false, true =>
    -- a.delta < b.delta / sqrt2  ⟺  a.delta * sqrt2 < b.delta
    if a.delta < 0 then 0 ≤ b.delta ∨ 2 * a.delta ^ 2 > b.delta ^ 2
    else 0 < b.delta ∧ 2 * a.delta ^ 2 < b.delta ^ 2

theorem sqrt_two_pos : (0 : ℝ) < Real.sqrt 2 := Real.sqrt_pos.mpr (by norm_num)

theorem sq_sqrt_two : Real.sqrt 2 ^ 2 = 2 := Real.sq_sqrt (by norm_num)

/-- Key auxiliary: `x < y * sqrt 2` decided by sign analysis and squaring. -/
theorem lt_mul_sqrt_two_iff (x y : ℝ) :
    x < y * Real.sqrt 2 ↔
      (x < 0 ∧ (0 ≤ y ∨ x ^ 2 > 2 * y ^ 2)) ∨ (0 ≤ x ∧ 0 < y ∧ x ^ 2 < 2 * y ^ 2) := by
  have h2 := sq_sqrt_two
  have hpos := sqrt_two_pos
  constructor
  · intro h
    rcases lt_or_le x 0 with hx | hx
    · refine Or.inl ⟨hx, ?_⟩
      rcases lt_or_le y 0 with hy | hy
      · refine Or.inr ?_
        have hy2 : y * Real.sqrt 2 < 0 := mul_neg_of_neg_of_pos hy hpos
        have h1 : 0 < y * Real.sqrt 2 - x := by linarith
        have hsum : y * Real.sqrt 2 + x < 0 := by linarith
        have hprod := mul_pos h1 (neg_pos.mpr hsum)
        nlinarith [hprod]
      · exact Or.inl hy
    · refine Or.inr ⟨hx, ?_, ?_⟩
      · by_contra hy
        push_neg at hy
        have : y * Real.sqrt 2 ≤ 0 := mul_nonpos_of_nonpos_of_nonneg hy hpos.le
        linarith
      · have hy : 0 < y := by
          by_contra hy
          push_neg at hy
          have : y * Real.sqrt 2 ≤ 0 := mul_nonpos_of_nonpos_of_nonneg hy hpos.le
          linarith
        have := mul_self_lt_mul_self hx h
        nlinarith [this]
  · rintro (⟨hx, hy | hsq⟩ | ⟨hx, hy, hsq⟩)
    · have : 0 ≤ y * Real.sqrt 2 := mul_nonneg hy hpos.le
      linarith
    · rcases lt_or_le y 0 with hy | hy
      · by_contra hcon
        push_neg at hcon
        have hy2 : y * Real.sqrt 2 < 0 := mul_neg_of_neg_of_pos hy hpos
        have hd : 0 ≤ x - y * Real.sqrt 2 := by linarith
        have hs : x + y * Real.sqrt 2 ≤ 0 := by linarith
        have := mul_nonpos_of_nonneg_of_nonpos hd hs
        nlinarith [this]
      · have : 0 ≤ y * Real.sqrt 2 := mul_nonneg hy hpos.le
        linarith
    · by_contra hcon
      push_neg at hcon
      have hy2 : 0 ≤ y * Real.sqrt 2 := by positivity
      have := mul_self_le_mul_self hy2 hcon
      nlinarith [this]

/-- Companion to `lt_mul_sqrt_two_iff` for `x * sqrt 2 < y`. -/
theorem mul_sqrt_two_lt_iff (x y : ℝ) :
    x * Real.sqrt 2 < y ↔
      (x < 0 ∧ (0 ≤ y ∨ 2 * x ^ 2 > y ^ 2)) ∨ (0 ≤ x ∧ 0 < y ∧ 2 * x ^ 2 < y ^ 2) := by
  have h2 := sq_sqrt_two
  have hpos := sqrt_two_pos
  have hsq : ∀ z : ℝ, z * Real.sqrt 2 * Real.sqrt 2 = 2 * z := by
    intro z
    calc z * Real.sqrt 2 * Real.sqrt 2 = z * Real.sqrt 2 ^ 2 := by ring
      _ = 2 * z := by rw [h2]; ring
  have hstep : x * Real.sqrt 2 < y ↔ 2 * x < y * Real.sqrt 2 := by
    constructor
    · intro h
      have h3 := mul_lt_mul_of_pos_right h hpos
      rw [hsq] at h3
      exact h3
    · intro h
      have h3 : 2 * x * Real.sqrt 2 < y * Real.sqrt 2 * Real.sqrt 2 :=
        mul_lt_mul_of_pos_right h hpos
      rw [hsq] at h3
      have h5 : 2 * x * Real.sqrt 2 = 2 * (x * Real.sqrt 2) := by ring
      rw [h5] at h3
      linarith
  rw [hstep, lt_mul_sqrt_two_iff]
  constructor
  · rintro (⟨hx, hy | hsq⟩ | ⟨hx, hy, hsq⟩)
    · exact Or.inl ⟨by linarith, Or.inl hy⟩
    · exact Or.inl ⟨by linarith, Or.inr (by nlinarith)⟩
    · exact Or.inr ⟨by linarith, hy, by nlinarith⟩
  · rintro (⟨hx, hy | hsq⟩ | ⟨hx, hy, hsq⟩)
    · exact Or.inl ⟨by linarith, Or.inl hy⟩
    · exact Or.inl ⟨by linarith, Or.inr (by nlinarith)⟩
    · exact Or.inr ⟨by linarith, hy, by nlinarith⟩

/-- Rational form of `lt_mul_sqrt_two_iff`, shaped like the `true, false`
branch of `slopeLtB`. -/
theorem lt_mul_sqrt_two_iff_rat (da db : ℚ) :
    ((da : ℝ) < (db : ℝ) * Real.sqrt 2) ↔
      (if da < 0 then 0 ≤ db ∨ da ^ 2 > 2 * db ^ 2 else 0 < db ∧ da ^ 2 < 2 * db ^ 2) := by
  rw [lt_mul_sqrt_two_iff]
  split_ifs with h
  · constructor
    · rintro (⟨_, hy | hsq⟩ | ⟨hx, _, _⟩)
      · exact Or.inl (by exact_mod_cast hy)
      · exact Or.inr (by exact_mod_cast hsq)
      · exact absurd hx (by push_neg; exact_mod_cast h)
    · rintro (hy | hsq)
      · exact Or.inl ⟨by exact_mod_cast h, Or.inl (by exact_mod_cast hy)⟩
      · exact Or.inl ⟨by exact_mod_cast h, Or.inr (by exact_mod_cast hsq)⟩
  · push_neg at h
    constructor
    · rintro (⟨hx, _⟩ | ⟨_, hy, hsq⟩)
      · exact absurd hx (by push_neg; exact_mod_cast h)
      · exact ⟨by exact_mod_cast hy, by exact_mod_cast hsq⟩
    · rintro ⟨hy, hsq⟩
      exact Or.inr ⟨by exact_mod_cast h, by exact_mod_cast hy, by exact_mod_cast hsq⟩

/-- Rational form of `mul_sqrt_two_lt_iff`, shaped like the `false, true`
branch of `slopeLtB`. -/
theorem mul_sqrt_two_lt_iff_rat (da db : ℚ) :
    ((da : ℝ) * Real.sqrt 2 < (db : ℝ)) ↔
      (if da < 0 then 0 ≤ db ∨ 2 * da ^ 2 > db ^ 2 else 0 < db ∧ 2 * da ^ 2 < db ^ 2) := by
  rw [mul_sqrt_two_lt_iff]
  split_ifs with h
  · constructor
    · rintro (⟨_, hy | hsq⟩ | ⟨hx, _, _⟩)
      · exact Or.inl (by exact_mod_cast hy)
      · exact Or.inr (by exact_mod_cast hsq)
      · exact absurd hx (by push_neg; exact_mod_cast h)
    · rintro (hy | hsq)
      · exact Or.inl ⟨by exact_mod_cast h, Or.inl (by exact_mod_cast hy)⟩
      · exact Or.inl ⟨by exact_mod_cast h, Or.inr (by exact_mod_cast hsq)⟩
  · push_neg at h
    constructor
    · rintro (⟨hx, _⟩ | ⟨_, hy, hsq⟩)
      · exact absurd hx (by push_neg; exact_mod_cast h)
      · exact ⟨by exact_mod_cast hy, by exact_mod_cast hsq⟩
    · rintro ⟨hy, hsq⟩
      exact Or.inr ⟨by exact_mod_cast h, by exact_mod_cast hy, by exact_mod_cast hsq⟩

theorem slopeVal_card (step : ℝ) (d : ℚ) :
    slopeVal step ⟨d, false⟩ = (d : ℝ) / step := by simp [slopeVal]

theorem slopeVal_diag (step : ℝ) (d : ℚ) :
    slopeVal step ⟨d, true⟩ = (d : ℝ) / (step * Real.sqrt 2) := by simp [slopeVal]

/-- The boolean comparator decides the real slope comparison, for every
positive step size — in particular the same pairs compare equal for the true
grid step and for the hardcoded `10` of `get_steepest_spill_pair`. -/
theorem slopeLtB_iff_val_lt {step : ℝ} (hstep : 0 < step) (a b : Slope ℚ) :
    slopeLtB a b = true ↔ slopeVal step a < slopeVal step b := by
  have hpos := sqrt_two_pos
  have h2 := sq_sqrt_two
  obtain ⟨da, ga⟩ := a
  obtain ⟨db, gb⟩ := b
  cases ga <;> cases gb
  · rw [slopeVal_card, slopeVal_card, div_lt_div_iff_of_pos_right hstep]
    simp only [slopeLtB, decide_eq_true_eq]
    exact ⟨fun h => by exact_mod_cast h, fun h => by exact_mod_cast h⟩
  · -- cardinal vs diagonal: da / step < db / (step * sqrt 2) ⟺ da * sqrt2 < db
    rw [slopeVal_card, slopeVal_diag]
    have key : (da : ℝ) / step < (db : ℝ) / (step * Real.sqrt 2) ↔
        (da : ℝ) * Real.sqrt 2 < db := by
      rw [div_lt_div_iff₀ hstep (by positivity)]
      constructor
      · intro h
        by_contra hcon
        push_neg at hcon
        have := mul_le_mul_of_nonneg_right hcon hstep.le
        nlinarith [this]
      · intro h
        have := mul_lt_mul_of_pos_right h hstep
        nlinarith [this]
    rw [key, mul_sqrt_two_lt_iff_rat]
    simp only [slopeLtB]
    split_ifs <;> simp
  · -- diagonal vs cardinal: da / (step * sqrt2) < db / step ⟺ da < db * sqrt2
    rw [slopeVal_diag, slopeVal_card]
    have key : (da : ℝ) / (step * Real.sqrt 2) < (db : ℝ) / step ↔
        (da : ℝ) < (db : ℝ) * Real.sqrt 2 := by
      rw [div_lt_div_iff₀ (by positivity) hstep]
      constructor
      · intro h
        by_contra hcon
        push_neg at hcon
        have := mul_le_mul_of_nonneg_right hcon hstep.le
        nlinarith [this]
      · intro h
        have := mul_lt_mul_of_pos_right h hstep
        nlinarith [this]
    rw [key, lt_mul_sqrt_two_iff_rat]
    simp only [slopeLtB]
    split_ifs <;> simp
  · rw [slopeVal_diag, slopeVal_diag,
      div_lt_div_iff_of_pos_right (by positivity : (0:ℝ) < step * Real.sqrt 2)]
    simp only [slopeLtB, decide_eq_true_eq]
    exact ⟨fun h => by exact_mod_cast h, fun h => by exact_mod_cast h⟩

theorem slopeVal_pos_iff {step : ℝ} (hstep : 0 < step) (s : Slope ℚ) :
    0 < slopeVal step s ↔ 0 < s.delta := by
  obtain ⟨d, g⟩ := s
  cases g
  · rw [slopeVal_card]
    rw [div_pos_iff]
    constructor
    · rintro (⟨hd, _⟩ | ⟨_, hs⟩)
      · exact_mod_cast hd
      · linarith
    · intro hd
      exact Or.inl ⟨by exact_mod_cast hd, hstep⟩
  · rw [slopeVal_diag]
    have hpos : (0 : ℝ) < step * Real.sqrt 2 := by positivity
    rw [div_pos_iff]
    constructor
    · rintro (⟨hd, _⟩ | ⟨_, hs⟩)
      · exact_mod_cast hd
      · linarith
    · intro hd
      exact Or.inl ⟨by exact_mod_cast hd, hpos⟩

/-- `np.argmax` over slopes: scan carrying the best index and best slope so
far, replacing them only on strict increase — so the first maximum wins.
`argmaxPair (b, bs) i l` scans `l`, whose head sits at overall index `i`. -/
def argmaxPair : ℕ × Slope α → ℕ → List (Slope α) → ℕ × Slope α
  | acc, _, [] => acc
  | (b, bs), i, x :: xs =>
    if slopeLtB bs x then argmaxPair (i, x) (i + 1) xs
    else argmaxPair (b, bs) (i + 1) xs

/-- Index of the first maximal slope (`np.argmax` over the derivative array). -/
def argmaxSlope : List (Slope α) → ℕ
  | [] => 0
  | x :: xs => (argmaxPair (0, x) 1 xs).1

theorem argmaxPair_spec (xs : List (Slope ℚ)) : ∀ (b i : ℕ) (bs : Slope ℚ), b < i →
    (((argmaxPair (b, bs) i xs).1 = b ∧ (argmaxPair (b, bs) i xs).2 = bs) ∨
      (∃ j, ∃ hj : j < xs.length, (argmaxPair (b, bs) i xs).1 = i + j ∧
        (argmaxPair (b, bs) i xs).2 = xs.get ⟨j, hj⟩)) ∧
    (slopeVal 1 bs ≤ slopeVal 1 (argmaxPair (b, bs) i xs).2) ∧
    (∀ j, ∀ hj : j < xs.length,
      slopeVal 1 (xs.get ⟨j, hj⟩) ≤ slopeVal 1 (argmaxPair (b, bs) i xs).2) ∧
    (b < (argmaxPair (b, bs) i xs).1 →
      slopeVal 1 bs < slopeVal 1 (argmaxPair (b, bs) i xs).2) ∧
    (∀ j, ∀ hj : j < xs.length, i + j < (argmaxPair (b, bs) i xs).1 →
      slopeVal 1 (xs.get ⟨j, hj⟩) < slopeVal 1 (argmaxPair (b, bs) i xs).2) := by
  induction xs with
  | nil =>
    intro b i bs hbi
    refine ⟨Or.inl ⟨rfl, rfl⟩, le_refl _, ?_, ?_, ?_⟩
    · intro j hj; simp at hj
    · intro hb; simp [argmaxPair] at hb
    · intro j hj; simp at hj
  | cons x t ih =>
    intro b i bs hbi
    by_cases hcmp : slopeLtB bs x = true
    · have hlt : slopeVal 1 bs < slopeVal 1 x := (slopeLtB_iff_val_lt one_pos _ _).mp hcmp
      have heq : argmaxPair (b, bs) i (x :: t) = argmaxPair (i, x) (i + 1) t := by
        simp [argmaxPair, hcmp]
      obtain ⟨hid, hge, hall, hfst1, hfst2⟩ := ih i (i + 1) x (by omega)
      rw [heq]
      refine ⟨?_, hlt.le.trans hge, ?_, fun _ => hlt.trans_le hge, ?_⟩
      · rcases hid with ⟨h1, h2⟩ | ⟨j, hj, h1, h2⟩
        · exact Or.inr ⟨0, by simp, by simpa using h1, h2⟩
        · exact Or.inr ⟨j + 1, by simpa using Nat.succ_lt_succ hj,
            by omega, h2⟩
      · intro j hj
        cases j with
        | zero => exact hge
        | succ j' => exact hall j' (by simpa using Nat.lt_of_succ_lt_succ hj)
      · intro j hj hlt2
        cases j with
        | zero =>
          have : i < (argmaxPair (i, x) (i + 1) t).1 := by omega
          exact hfst1 this
        | succ j' =>
          have : (i + 1) + j' < (argmaxPair (i, x) (i + 1) t).1 := by omega
          exact hfst2 j' (by simpa using Nat.lt_of_succ_lt_succ hj) this
    · have hle : slopeVal 1 x ≤ slopeVal 1 bs := by
        have := (@slopeLtB_iff_val_lt 1 one_pos bs x).not
        rw [← this] at *
        exact le_of_not_lt (fun hc => hcmp ((slopeLtB_iff_val_lt one_pos _ _).mpr hc))
      have heq : argmaxPair (b, bs) i (x :: t) = argmaxPair (b, bs) (i + 1) t := by
        simp [argmaxPair, hcmp]
      obtain ⟨hid, hge, hall, hfst1, hfst2⟩ := ih b (i + 1) bs (by omega)
      rw [heq]
      refine ⟨?_, hge, ?_, hfst1, ?_⟩
      · rcases hid with ⟨h1, h2⟩ | ⟨j, hj, h1, h2⟩
        · exact Or.inl ⟨h1, h2⟩
        · exact Or.inr ⟨j + 1, by simpa using Nat.succ_lt_succ hj, by omega, h2⟩
      · intro j hj
        cases j with
        | zero => exact hle.trans hge
        | succ j' => exact hall j' (by simpa using Nat.lt_of_succ_lt_succ hj)
      · intro j hj hlt2
        cases j with
        | zero =>
          have hb : b < (argmaxPair (b, bs) (i + 1) t).1 := by omega
          have hlt3 := hfst1 hb
          show slopeVal 1 x < slopeVal 1 (argmaxPair (b, bs) (i + 1) t).2
          linarith
        | succ j' =>
          have : (i + 1) + j' < (argmaxPair (b, bs) (i + 1) t).1 := by omega
          exact hfst2 j' (by simpa using Nat.lt_of_succ_lt_succ hj) this

theorem argmaxSlope_spec (l : List (Slope ℚ)) (hl : l ≠ []) :
    ∃ hk : argmaxSlope l < l.length,
      (∀ j, ∀ hj : j < l.length,
        slopeVal 1 (l.get ⟨j, hj⟩) ≤ slopeVal 1 (l.get ⟨argmaxSlope l, hk⟩)) ∧
      (∀ j, ∀ hj : j < l.length, j < argmaxSlope l →
        slopeVal 1 (l.get ⟨j, hj⟩) < slopeVal 1 (l.get ⟨argmaxSlope l, hk⟩)) := by
  cases l with
  | nil => simp at hl
  | cons x t =>
    obtain ⟨hid, hge, hall, hfst1, hfst2⟩ := argmaxPair_spec t 0 1 x (by omega)
    have hk : argmaxSlope (x :: t) < (x :: t).length := by
      show (argmaxPair (0, x) 1 t).1 < t.length + 1
      rcases hid with ⟨h1, _⟩ | ⟨j, hj, h1, _⟩ <;> omega
    have hgeteq : (x :: t).get ⟨argmaxSlope (x :: t), hk⟩ = (argmaxPair (0, x) 1 t).2 := by
      rcases hid with ⟨h1, h2⟩ | ⟨j, hj, h1, h2⟩
      · have : argmaxSlope (x :: t) = 0 := h1
        simp [this, h2]
      · have h3 : argmaxSlope (x :: t) = j + 1 := by
          show (argmaxPair (0, x) 1 t).1 = j + 1
          omega
        rw [h2]
        have h4 : j + 1 < (x :: t).length := by
          simp only [List.length_cons]
          omega
        have h5 : (x :: t).get ⟨j + 1, h4⟩ = t.get ⟨j, hj⟩ := by
          simp
        rw [← h5]
        congr 1
        exact Fin.ext h3
    refine ⟨hk, ?_, ?_⟩
    · intro j hj
      rw [hgeteq]
      cases j with
      | zero => exact hge
      | succ j' => exact hall j' (by simpa using Nat.lt_of_succ_lt_succ hj)
    · intro j hj hjlt
      rw [hgeteq]
      cases j with
      | zero =>
        have : 0 < (argmaxPair (0, x) 1 t).1 := hjlt
        exact hfst1 this
      | succ j' =>
        have : 1 + j' < (argmaxPair (0, x) 1 t).1 := by
          have : j' + 1 < argmaxSlope (x :: t) := hjlt
          show 1 + j' < argmaxSlope (x :: t)
          omega
        exact hfst2 j' (by simpa using Nat.lt_of_succ_lt_succ hj) this


theorem argmaxPair_idx (xs : List (Slope α)) : ∀ (b i : ℕ) (bs : Slope α), b < i →
    ((argmaxPair (b, bs) i xs).1 = b ∧ (argmaxPair (b, bs) i xs).2 = bs) ∨
      (∃ j, ∃ hj : j < xs.length, (argmaxPair (b, bs) i xs).1 = i + j ∧
        (argmaxPair (b, bs) i xs).2 = xs.get ⟨j, hj⟩) := by
  induction xs with
  | nil => intro b i bs _; exact Or.inl ⟨rfl, rfl⟩
  | cons x t ih =>
    intro b i bs hbi
    by_cases hcmp : slopeLtB bs x = true
    · have heq : argmaxPair (b, bs) i (x :: t) = argmaxPair (i, x) (i + 1) t := by
        simp [argmaxPair, hcmp]
      rw [heq]
      rcases ih i (i + 1) x (by omega) with ⟨h1, h2⟩ | ⟨j, hj, h1, h2⟩
      · exact Or.inr ⟨0, by simp, by simpa using h1, h2⟩
      · exact Or.inr ⟨j + 1, by simpa using Nat.succ_lt_succ hj, by omega, h2⟩
    · have heq : argmaxPair (b, bs) i (x :: t) = argmaxPair (b, bs) (i + 1) t := by
        simp [argmaxPair, hcmp]
      rw [heq]
      rcases ih b (i + 1) bs (by omega) with ⟨h1, h2⟩ | ⟨j, hj, h1, h2⟩
      · exact Or.inl ⟨h1, h2⟩
      · exact Or.inr ⟨j + 1, by simpa using Nat.succ_lt_succ hj, by omega, h2⟩

theorem argmaxSlope_lt_length (l : List (Slope α)) (hl : l ≠ []) :
    argmaxSlope l < l.length := by
  cases l with
  | nil => simp at hl
  | cons x t =>
    show (argmaxPair (0, x) 1 t).1 < t.length + 1
    rcases argmaxPair_idx t 0 1 x (by omega) with ⟨h1, _⟩ | ⟨j, hj, h1, _⟩ <;> omega

theorem argmaxSlope_get_eq (l : List (Slope α)) (x : Slope α) (t : List (Slope α))
    (hl : l = x :: t) (hk : argmaxSlope l < l.length) :
    l.get ⟨argmaxSlope l, hk⟩ = (argmaxPair (0, x) 1 t).2 := by
  subst hl
  rcases argmaxPair_idx t 0 1 x (by omega) with ⟨h1, h2⟩ | ⟨j, hj, h1, h2⟩
  · have h3 : argmaxSlope (x :: t) = 0 := h1
    simp [h3, h2]
  · have h3 : argmaxSlope (x :: t) = 1 + j := h1
    rw [h2]
    have h4 : j + 1 < (x :: t).length := by
      simp only [List.length_cons]
      omega
    have h5 : (x :: t).get ⟨j + 1, h4⟩ = t.get ⟨j, hj⟩ := by simp
    rw [← h5]
    have h6 : argmaxSlope (x :: t) = j + 1 := by omega
    exact congrArg (x :: t).get (Fin.ext h6)

/-- If the comparator does not put `a` below `b` and `b` has positive
numerator, so does `a` (sign analysis of `slopeLtB`, valid in any linearly
ordered commutative ring). -/
theorem slopeLtB_false_pos {a b : Slope α} (hf : ¬ slopeLtB a b = true)
    (hb : 0 < b.delta) : 0 < a.delta := by
  obtain ⟨da, ga⟩ := a
  obtain ⟨db, gb⟩ := b
  simp only at hb ⊢
  by_contra hda
  push_neg at hda
  apply hf
  rcases lt_or_eq_of_le hda with hlt | heq
  · cases ga <;> cases gb <;> simp only [slopeLtB]
    · exact decide_eq_true (lt_trans hlt hb)
    · rw [if_pos hlt]
      exact decide_eq_true (Or.inl hb.le)
    · rw [if_pos hlt]
      exact decide_eq_true (Or.inl hb.le)
    · exact decide_eq_true (lt_trans hlt hb)
  · subst heq
    cases ga <;> cases gb <;> simp only [slopeLtB]
    · exact decide_eq_true hb
    · rw [if_neg (lt_irrefl 0)]
      exact decide_eq_true ⟨hb, by nlinarith [pow_pos hb 2]⟩
    · rw [if_neg (lt_irrefl 0)]
      exact decide_eq_true ⟨hb, by nlinarith [pow_pos hb 2]⟩
    · exact decide_eq_true hb

/-- If the comparator puts `a` strictly below `b` and `a` has positive
numerator, so does `b`. -/
theorem slopeLtB_true_pos {a b : Slope α} (ht : slopeLtB a b = true)
    (ha : 0 < a.delta) : 0 < b.delta := by
  obtain ⟨da, ga⟩ := a
  obtain ⟨db, gb⟩ := b
  simp only at ha ⊢
  cases ga <;> cases gb <;> simp only [slopeLtB] at ht
  · exact lt_trans ha (of_decide_eq_true ht)
  · rw [if_neg (not_lt.mpr ha.le)] at ht
    exact (of_decide_eq_true ht).1
  · rw [if_neg (not_lt.mpr ha.le)] at ht
    exact (of_decide_eq_true ht).1
  · exact lt_trans ha (of_decide_eq_true ht)

/-- The slope selected by `np.argmax` has positive numerator whenever some
slope does. -/
theorem argmaxSlope_pos (l : List (Slope α)) (hl : l ≠ [])
    (hex : ∃ s ∈ l, 0 < s.delta) (hk : argmaxSlope l < l.length) :
    0 < (l.get ⟨argmaxSlope l, hk⟩).delta := by
  cases l with
  | nil => simp at hl
  | cons x t =>
    rw [argmaxSlope_get_eq (x :: t) x t rfl hk]
    -- fold invariant: if some scanned slope is positive then the best is
    have key : ∀ (t : List (Slope α)) (b i : ℕ) (bs : Slope α),
        (0 < bs.delta ∨ ∃ s ∈ t, 0 < s.delta) →
        0 < (argmaxPair (b, bs) i t).2.delta := by
      intro t
      induction t with
      | nil =>
        intro b i bs hp
        rcases hp with hp | ⟨s, hs, _⟩
        · exact hp
        · simp at hs
      | cons y u ih =>
        intro b i bs hp
        by_cases hcmp : slopeLtB bs y = true
        · have heq : argmaxPair (b, bs) i (y :: u) = argmaxPair (i, y) (i + 1) u := by
            simp [argmaxPair, hcmp]
          rw [heq]
          apply ih
          rcases hp with hp | ⟨s, hs, hs2⟩
          · exact Or.inl (slopeLtB_true_pos hcmp hp)
          · rcases List.mem_cons.mp hs with rfl | hs
            · exact Or.inl hs2
            · exact Or.inr ⟨s, hs, hs2⟩
        · have heq : argmaxPair (b, bs) i (y :: u) = argmaxPair (b, bs) (i + 1) u := by
            simp [argmaxPair, hcmp]
          rw [heq]
          apply ih
          rcases hp with hp | ⟨s, hs, hs2⟩
          · exact Or.inl hp
          · rcases List.mem_cons.mp hs with rfl | hs
            · exact Or.inl (slopeLtB_false_pos hcmp hs2)
            · exact Or.inr ⟨s, hs, hs2⟩
    apply key
    obtain ⟨s, hs, hs2⟩ := hex
    rcases List.mem_cons.mp hs with rfl | hs
    · exact Or.inl hs2
    · exact Or.inr ⟨s, hs, hs2⟩

/-! ## Grid kernel and flow field -/

/-- Neighbor heights of cell `(r, c)` in the canonical D8 slice order of
`get_neighbor_heights`: NE, E, SE, S, SW, W, NW, N. -/
def nbrHeightsD8 (h : Heights α) (nx r c : ℕ) : List α :=
  [hAt h nx (r - 1) (c + 1), hAt h nx r (c + 1), hAt h nx (r + 1) (c + 1),
   hAt h nx (r + 1) c, hAt h nx (r + 1) (c - 1), hAt h nx r (c - 1),
   hAt h nx (r - 1) (c - 1), hAt h nx (r - 1) c]

/-- Neighbor heights in the canonical D4 slice order: E, S, W, N. -/
def nbrHeightsD4 (h : Heights α) (nx r c : ℕ) : List α :=
  [hAt h nx r (c + 1), hAt h nx (r + 1) c, hAt h nx r (c - 1), hAt h nx (r - 1) c]

def nbrHeights (h : Heights α) (nx r c : ℕ) (d4 : Bool) : List α :=
  if d4 then nbrHeightsD4 h nx r c else nbrHeightsD8 h nx r c

/-- Diagonal flags of the neighbor slots, i.e. the distance vector of
`get_derivatives`: `[diag, card, diag, card, diag, card, diag, card]` for D8
and all cardinal for D4. -/
def diagFlags (d4 : Bool) : List Bool :=
  if d4 then [false, false, false, false]
  else [true, false, true, false, true, false, true, false]

/-- Per-cell row of `get_derivatives`: slope `(h[i] - h[nb]) / dist` to each
neighbor, represented by numerator and distance class. -/
def derivList (h : Heights α) (nx r c : ℕ) (d4 : Bool) : List (Slope α) :=
  (List.zip (nbrHeights h nx r c d4) (diagFlags d4)).map
    (fun p => ⟨hAt h nx r c - p.1, p.2⟩)

/-- The numpy `[1:-1, 1:-1]` interior slice. -/
def isInterior (ny nx r c : ℕ) : Prop := 1 ≤ r ∧ r + 1 < ny ∧ 1 ≤ c ∧ c + 1 < nx

instance (ny nx r c : ℕ) : Decidable (isInterior ny nx r c) := by
  unfold isInterior
  infer_instance

/-- Cell of the outermost ring (`get_domain_boundary_coords`). -/
def isBoundaryCell (ny nx r c : ℕ) : Prop :=
  r = 0 ∨ r + 1 = ny ∨ c = 0 ∨ c + 1 = nx

instance (ny nx r c : ℕ) : Decidable (isBoundaryCell ny nx r c) := by
  unfold isBoundaryCell
  infer_instance

/-- `fill_single_cell_depressions` (the source always calls the D8
neighborhood here): in one simultaneous pass over the input raster, every
strictly interior cell whose neighbor differences `h[i] - h[nb]` all are
negative (`np.max(delta) < 0`) is overwritten with the minimum neighbor
height; every other cell keeps its value. -/
def fill_single_cell_depressions (h : Heights α) (ny nx : ℕ) : Heights α :=
  (List.range (ny * nx)).map fun i =>
    let r := i / nx
    let c := i % nx
    if isInterior ny nx r c ∧
        qmax ((nbrHeightsD8 h nx r c).map (fun z => hAt h nx r c - z)) < 0 then
      qmin (nbrHeightsD8 h nx r c)
    else h.getD i 0

/-- `get_flow_directions`: per interior cell, `-1` when no derivative is
positive (`np.max(derivatives) > 0` fails iff no numerator is positive),
otherwise the direction code `2^argmax` (D8) or `argmax + 1` (D4). Boundary
cells hold `None`. -/
def get_flow_directions (h : Heights α) (step : α) (ny nx : ℕ) (d4 : Bool) :
    List (Option ℤ) :=
  (List.range (ny * nx)).map fun i =>
    let r := i / nx
    let c := i % nx
    if isInterior ny nx r c then
      let slopes := derivList h nx r c d4
      if slopes.any (fun s => 0 < s.delta) then
        if d4 then some ((argmaxSlope slopes : ℤ) + 1)
        else some (2 ^ argmaxSlope slopes)
      else some (-1)
    else none

def topCodes (d4 : Bool) : List ℤ := if d4 then [4] else [1, 64, 128]

def rightCodes (d4 : Bool) : List ℤ := if d4 then [1] else [1, 2, 4]

def bottomCodes (d4 : Bool) : List ℤ := if d4 then [2] else [4, 8, 16]

def leftCodes (d4 : Bool) : List ℤ := if d4 then [3] else [16, 32, 64]

/-- `remove_out_of_boundary_flow`: rewrite to `-1` the direction codes that
would leave the interior — row `1` pointing up, column `nx-2` pointing right,
row `ny-2` pointing down, column `1` pointing left. -/
def remove_out_of_boundary_flow (flow : List (Option ℤ)) (ny nx : ℕ) (d4 : Bool) :
    List (Option ℤ) :=
  (List.range (ny * nx)).map fun i =>
    let r := i / nx
    let c := i % nx
    match flow.getD i none with
    | none => none
    | some v =>
      if (r = 1 ∧ v ∈ topCodes d4) ∨ (c + 2 = nx ∧ v ∈ rightCodes d4) ∨
          (r + 2 = ny ∧ v ∈ bottomCodes d4) ∨ (c = 1 ∧ v ∈ leftCodes d4) then
        some (-1)
      else some v

/-- Linear-index translation of a direction code
(`values`/`translations` of `get_flow_direction_indices`). -/
def translationOf (nx : ℕ) (d4 : Bool) (v : ℤ) : Option ℤ :=
  if d4 then
    if v = 1 then some 1
    else if v = 2 then some (nx : ℤ)
    else if v = 3 then some (-1)
    else if v = 4 then some (-(nx : ℤ))
    else none
  else
    if v = 1 then some (-(nx : ℤ) + 1)
    else if v = 2 then some 1
    else if v = 4 then some ((nx : ℤ) + 1)
    else if v = 8 then some (nx : ℤ)
    else if v = 16 then some ((nx : ℤ) - 1)
    else if v = 32 then some (-1)
    else if v = 64 then some (-(nx : ℤ) - 1)
    else if v = 128 then some (-(nx : ℤ))
    else none

/-- `get_flow_direction_indices`: direction codes (after boundary removal)
converted to target linear indices; `-1` (pit) and `None` (boundary) copied. -/
def get_flow_direction_indices (h : Heights α) (step : α) (ny nx : ℕ) (d4 : Bool) :
    List (Option ℤ) :=
  let flow := remove_out_of_boundary_flow (get_flow_directions h step ny nx d4) ny nx d4
  (List.range (ny * nx)).map fun i =>
    match flow.getD i none with
    | none => none
    | some v =>
      match translationOf nx d4 v with
      | some t => some ((i : ℤ) + t)
      | none => some v

theorem lt_qmin_iff {l : List α} (hne : l ≠ []) (a : α) :
    a < qmin l ↔ ∀ x ∈ l, a < x := by
  induction l with
  | nil => simp at hne
  | cons x t ih =>
    cases t with
    | nil => simp [qmin]
    | cons y s =>
      simp only [qmin, lt_min_iff, List.mem_cons, forall_eq_or_imp]
      rw [ih (by simp)]
      simp

theorem getD_range_map {β : Type} (n : ℕ) (f : ℕ → β) (d : β) (i : ℕ) (hi : i < n) :
    ((List.range n).map f).getD i d = f i := by
  rw [List.getD_eq_getElem?_getD, List.getElem?_map, List.getElem?_range hi]
  rfl

theorem getD_range_map_ge {β : Type} (n : ℕ) (f : ℕ → β) (d : β) (i : ℕ) (hi : n ≤ i) :
    ((List.range n).map f).getD i d = d := by
  apply List.getD_eq_default
  simpa using hi

/-- Pointwise value of `fill_single_cell_depressions` (helper). -/
theorem fill_getD (h : Heights α) (ny nx i : ℕ) (hi : i < ny * nx) :
    (fill_single_cell_depressions h ny nx).getD i 0 =
      if isInterior ny nx (i / nx) (i % nx) ∧
          qmax ((nbrHeightsD8 h nx (i / nx) (i % nx)).map
            (fun z => hAt h nx (i / nx) (i % nx) - z)) < 0 then
        qmin (nbrHeightsD8 h nx (i / nx) (i % nx))
      else h.getD i 0 :=
  getD_range_map _ _ _ _ hi

theorem nbrHeightsD8_ne_nil (h : Heights α) (nx r c : ℕ) :
    nbrHeightsD8 h nx r c ≠ [] := by
  simp [nbrHeightsD8]

/-- The pit condition `np.max(h[i] - nbrs) < 0` says exactly that the cell is
strictly below every (equivalently: below the minimum) neighbor height. -/
theorem fill_cond_iff (h : Heights α) (nx r c : ℕ) :
    qmax ((nbrHeightsD8 h nx r c).map (fun z => hAt h nx r c - z)) < 0 ↔
      hAt h nx r c < qmin (nbrHeightsD8 h nx r c) := by
  rw [qmax_lt_iff (by simp [nbrHeightsD8]) 0,
    lt_qmin_iff (nbrHeightsD8_ne_nil h nx r c)]
  constructor
  · intro hall z hz
    have := hall _ (List.mem_map_of_mem _ hz)
    linarith
  · intro hall y hy
    obtain ⟨z, hz, rfl⟩ := List.mem_map.mp hy
    have := hall z hz
    linarith

theorem linear_index_eq (nx r c : ℕ) (hc : c < nx) :
    (r * nx + c) / nx = r ∧ (r * nx + c) % nx = c := by
  have h1 : r * nx + c = nx * r + c := by ring
  constructor
  · rw [h1, Nat.mul_add_div (by omega), Nat.div_eq_of_lt hc, Nat.add_zero]
  · rw [h1, Nat.mul_add_mod, Nat.mod_eq_of_lt hc]

theorem hAt_eq_getD (h : Heights α) (nx i : ℕ) :
    hAt h nx (i / nx) (i % nx) = h.getD i 0 := by
  unfold hAt
  congr 1
  rw [Nat.mul_comm]
  exact Nat.div_add_mod i nx

/-- Boundary-ring cells are never in the interior slice. -/
theorem isBoundaryCell_not_interior {ny nx r c : ℕ} (hb : isBoundaryCell ny nx r c) :
    ¬ isInterior ny nx r c := by
  unfold isBoundaryCell at hb
  unfold isInterior
  omega

def peakRaster : Heights ℤ := [5, 5, 5, 5, 10, 5, 5, 5, 5]

/-- C6 counterexample: on a 3×3 raster whose center is a one-cell *peak* —
its maximum neighbor elevation (5) is below its own elevation (10), exactly
the condition the claim quotes — `fill_single_cell_depressions` leaves the
cell at 10 instead of raising (rewriting) it to the minimum neighbor
elevation 5: the claimed condition selects peaks, the code raises pits. -/
theorem fill_claim_peak_counterexample :
    qmax (nbrHeightsD8 peakRaster 3 1 1) < hAt peakRaster 3 1 1 ∧
      qmin (nbrHeightsD8 peakRaster 3 1 1) = 5 ∧
      isInterior 3 3 1 1 ∧
      (fill_single_cell_depressions peakRaster 3 3).getD 4 0 = 10 := by decide

/-- C6 (amended): `fill_single_cell_depressions` raises, in one simultaneous
pass, exactly the strictly interior cells whose elevation is strictly below
the minimum (equivalently: below every) neighbor elevation, to that minimum
neighbor elevation, and changes no other cell. -/
theorem fill_single_cell_pits_characterization (h : Heights α) (ny nx i : ℕ)
    (hi : i < ny * nx) :
    (fill_single_cell_depressions h ny nx).getD i 0 =
      if isInterior ny nx (i / nx) (i % nx) ∧
          hAt h nx (i / nx) (i % nx) < qmin (nbrHeightsD8 h nx (i / nx) (i % nx)) then
        qmin (nbrHeightsD8 h nx (i / nx) (i % nx))
      else h.getD i 0 := by
  rw [fill_getD h ny nx i hi]
  by_cases hcond : isInterior ny nx (i / nx) (i % nx) ∧
      hAt h nx (i / nx) (i % nx) < qmin (nbrHeightsD8 h nx (i / nx) (i % nx))
  · rw [if_pos hcond, if_pos ⟨hcond.1, (fill_cond_iff h nx _ _).mpr hcond.2⟩]
  · rw [if_neg hcond, if_neg ?_]
    intro ⟨h1, h2⟩
    exact hcond ⟨h1, (fill_cond_iff h nx _ _).mp h2⟩

theorem fill_single_cell_pits_characterization_witness :
    (0 : ℕ) < 9 ∧
      (fill_single_cell_depressions ([2, 2, 2, 2, 0, 2, 2, 2, 2] : Heights ℤ) 3 3).getD 4 0 =
        (if isInterior 3 3 (4 / 3) (4 % 3) ∧
            hAt ([2, 2, 2, 2, 0, 2, 2, 2, 2] : Heights ℤ) 3 (4 / 3) (4 % 3) <
              qmin (nbrHeightsD8 ([2, 2, 2, 2, 0, 2, 2, 2, 2] : Heights ℤ) 3 (4 / 3) (4 % 3)) then
          qmin (nbrHeightsD8 ([2, 2, 2, 2, 0, 2, 2, 2, 2] : Heights ℤ) 3 (4 / 3) (4 % 3))
        else ([2, 2, 2, 2, 0, 2, 2, 2, 2] : Heights ℤ).getD 4 0) :=
  ⟨by decide,
    fill_single_cell_pits_characterization ([2, 2, 2, 2, 0, 2, 2, 2, 2] : Heights ℤ) 3 3 4
      (by decide)⟩

/-- C10: `fill_single_cell_depressions` never lowers a cell, and every cell
that is not strictly lower than all 8 of its neighbors — in particular every
domain-boundary cell — keeps exactly its input elevation. -/
theorem fill_single_cell_pits_frame (h : Heights α) (ny nx : ℕ)
    (hlen : h.length = ny * nx) (i : ℕ) :
    h.getD i 0 ≤ (fill_single_cell_depressions h ny nx).getD i 0 ∧
      ((isBoundaryCell ny nx (i / nx) (i % nx) ∨
          ¬ (∀ z ∈ nbrHeightsD8 h nx (i / nx) (i % nx), hAt h nx (i / nx) (i % nx) < z)) →
        (fill_single_cell_depressions h ny nx).getD i 0 = h.getD i 0) := by
  by_cases hi : i < ny * nx
  · rw [fill_getD h ny nx i hi]
    constructor
    · split_ifs with hcond
      · rw [← hAt_eq_getD h nx i]
        exact le_of_lt ((fill_cond_iff h nx _ _).mp hcond.2)
      · exact le_refl _
    · intro hkeep
      rw [if_neg ?_]
      intro ⟨hintr, hcond⟩
      rcases hkeep with hb | hnlt
      · exact isBoundaryCell_not_interior hb hintr
      · refine hnlt ?_
        rw [← lt_qmin_iff (nbrHeightsD8_ne_nil h nx _ _)]
        exact (fill_cond_iff h nx _ _).mp hcond
  · push_neg at hi
    have h1 : (fill_single_cell_depressions h ny nx).getD i 0 = 0 :=
      getD_range_map_ge _ _ _ _ hi
    have h2 : h.getD i 0 = 0 := List.getD_eq_default _ _ (by omega)
    rw [h1, h2]
    exact ⟨le_refl _, fun _ => rfl⟩

theorem fill_single_cell_pits_frame_witness :
    (([5, 5, 5, 5, 0, 5, 5, 5, 5] : Heights ℤ).length = 3 * 3) ∧
      (([5, 5, 5, 5, 0, 5, 5, 5, 5] : Heights ℤ).getD 0 0 ≤
          (fill_single_cell_depressions ([5, 5, 5, 5, 0, 5, 5, 5, 5] : Heights ℤ) 3 3).getD 0 0 ∧
        ((isBoundaryCell 3 3 (0 / 3) (0 % 3) ∨
            ¬ (∀ z ∈ nbrHeightsD8 ([5, 5, 5, 5, 0, 5, 5, 5, 5] : Heights ℤ) 3 (0 / 3) (0 % 3),
              hAt ([5, 5, 5, 5, 0, 5, 5, 5, 5] : Heights ℤ) 3 (0 / 3) (0 % 3) < z)) →
          (fill_single_cell_depressions ([5, 5, 5, 5, 0, 5, 5, 5, 5] : Heights ℤ) 3 3).getD 0 0 =
            ([5, 5, 5, 5, 0, 5, 5, 5, 5] : Heights ℤ).getD 0 0)) :=
  ⟨by decide,
    fill_single_cell_pits_frame ([5, 5, 5, 5, 0, 5, 5, 5, 5] : Heights ℤ) 3 3 (by decide) 0⟩

/-! ## Flow field specification (C5, and the monotonicity lemma behind C2) -/

/-- Coordinates of the canonical neighbors of `(r, c)`:
NE, E, SE, S, SW, W, NW, N for D8 and E, S, W, N for D4 (parallel to
`nbrHeights` and to the direction codes `2^k` resp. `k+1`). -/
def nbrCoords (r c : ℕ) (d4 : Bool) : List (ℕ × ℕ) :=
  if d4 then [(r, c + 1), (r + 1, c), (r, c - 1), (r - 1, c)]
  else [(r - 1, c + 1), (r, c + 1), (r + 1, c + 1), (r + 1, c),
        (r + 1, c - 1), (r, c - 1), (r - 1, c - 1), (r - 1, c)]

theorem interior_lt (ny nx r c : ℕ) (hint : isInterior ny nx r c) :
    r * nx + c < ny * nx := by
  obtain ⟨h1, h2, h3, h4⟩ := hint
  calc r * nx + c < r * nx + nx := by omega
    _ = (r + 1) * nx := by ring
    _ ≤ ny * nx := Nat.mul_le_mul_right _ (by omega)

theorem slopeVal_nonpos_iff {step : ℝ} (hstep : 0 < step) (s : Slope ℚ) :
    slopeVal step s ≤ 0 ↔ s.delta ≤ 0 := by
  rw [← not_lt, ← not_lt]
  exact not_congr (slopeVal_pos_iff hstep s)

theorem slopeVal_le_iff_one {step : ℝ} (hstep : 0 < step) (a b : Slope ℚ) :
    slopeVal step a ≤ slopeVal step b ↔ slopeVal 1 a ≤ slopeVal 1 b := by
  rw [← not_lt, ← not_lt, ← slopeLtB_iff_val_lt hstep, ← slopeLtB_iff_val_lt one_pos]

theorem slopeVal_lt_iff_one {step : ℝ} (hstep : 0 < step) (a b : Slope ℚ) :
    slopeVal step a < slopeVal step b ↔ slopeVal 1 a < slopeVal 1 b := by
  rw [← slopeLtB_iff_val_lt hstep, ← slopeLtB_iff_val_lt one_pos]

theorem get_flow_directions_interior (h : Heights α) (step : α) (ny nx : ℕ)
    (d4 : Bool) (r c : ℕ) (hint : isInterior ny nx r c) :
    (get_flow_directions h step ny nx d4).getD (r * nx + c) none =
      (if (derivList h nx r c d4).any (fun s => 0 < s.delta) then
        (if d4 then some ((argmaxSlope (derivList h nx r c d4) : ℤ) + 1)
         else some (2 ^ argmaxSlope (derivList h nx r c d4)))
       else some (-1)) := by
  have hc : c < nx := by obtain ⟨_, _, _, h4⟩ := hint; omega
  rw [get_flow_directions, getD_range_map _ _ _ _ (interior_lt ny nx r c hint)]
  simp only [(linear_index_eq nx r c hc).1, (linear_index_eq nx r c hc).2, if_pos hint]

theorem remove_out_of_boundary_flow_getD (flow : List (Option ℤ)) (ny nx : ℕ)
    (d4 : Bool) (r c : ℕ) (hlt : r * nx + c < ny * nx) (hc : c < nx) :
    (remove_out_of_boundary_flow flow ny nx d4).getD (r * nx + c) none =
      (match flow.getD (r * nx + c) none with
       | none => none
       | some v =>
         if (r = 1 ∧ v ∈ topCodes d4) ∨ (c + 2 = nx ∧ v ∈ rightCodes d4) ∨
             (r + 2 = ny ∧ v ∈ bottomCodes d4) ∨ (c = 1 ∧ v ∈ leftCodes d4) then
           some (-1)
         else some v) := by
  rw [remove_out_of_boundary_flow, getD_range_map _ _ _ _ hlt]
  simp only [(linear_index_eq nx r c hc).1, (linear_index_eq nx r c hc).2]

theorem get_flow_direction_indices_getD (h : Heights α) (step : α) (ny nx : ℕ)
    (d4 : Bool) (i : ℕ) (hi : i < ny * nx) :
    (get_flow_direction_indices h step ny nx d4).getD i none =
      (match (remove_out_of_boundary_flow (get_flow_directions h step ny nx d4)
          ny nx d4).getD i none with
       | none => none
       | some v =>
         match translationOf nx d4 v with
         | some t => some ((i : ℤ) + t)
         | none => some v) := by
  rw [get_flow_direction_indices, getD_range_map _ _ _ _ hi]

theorem derivList_length (h : Heights α) (nx r c : ℕ) (d4 : Bool) :
    (derivList h nx r c d4).length = if d4 then 4 else 8 := by
  cases d4 <;> rfl

theorem nbrCoords_length (r c : ℕ) (d4 : Bool) :
    (nbrCoords r c d4).length = if d4 then 4 else 8 := by
  cases d4 <;> rfl

theorem translationOf_neg_one (nx : ℕ) (d4 : Bool) :
    translationOf nx d4 (-1) = none := by
  cases d4 <;> simp [translationOf]

set_option maxHeartbeats 1000000

/-- `get_flow_direction_indices` at an interior cell with no positive slope:
the pit sentinel `-1` (generic helper shared by the flow-field claims). -/
theorem flow_value_nopos (h : Heights α) (step : α) (ny nx : ℕ) (d4 : Bool)
    (r c : ℕ) (hint : isInterior ny nx r c)
    (hany : (derivList h nx r c d4).any (fun s => decide (0 < s.delta)) = false) :
    (get_flow_direction_indices h step ny nx d4).getD (r * nx + c) none = some (-1) := by
  have hc : c < nx := by obtain ⟨_, _, _, h4⟩ := hint; omega
  have hi := interior_lt ny nx r c hint
  rw [get_flow_direction_indices_getD h step ny nx d4 _ hi,
    remove_out_of_boundary_flow_getD _ ny nx d4 r c hi hc,
    get_flow_directions_interior h step ny nx d4 r c hint, hany]
  have hmem : ¬ ((r = 1 ∧ (-1 : ℤ) ∈ topCodes d4) ∨ (c + 2 = nx ∧ (-1 : ℤ) ∈ rightCodes d4) ∨
      (r + 2 = ny ∧ (-1 : ℤ) ∈ bottomCodes d4) ∨ (c = 1 ∧ (-1 : ℤ) ∈ leftCodes d4)) := by
    cases d4 <;> simp [topCodes, rightCodes, bottomCodes, leftCodes]
  simp only [Bool.false_eq_true, if_false, if_neg hmem, translationOf_neg_one]

/-- `get_flow_direction_indices` at an interior cell with some positive slope:
the linear index of the `np.argmax` neighbor, rewritten to `-1` when that
neighbor sits on the boundary ring (generic helper shared by the flow-field
claims). -/
theorem flow_value_interior (h : Heights α) (step : α) (ny nx : ℕ) (d4 : Bool)
    (r c : ℕ) (hint : isInterior ny nx r c)
    (hany : (derivList h nx r c d4).any (fun s => decide (0 < s.delta)) = true) :
    (get_flow_direction_indices h step ny nx d4).getD (r * nx + c) none =
      (if isBoundaryCell ny nx
          ((nbrCoords r c d4).getD (argmaxSlope (derivList h nx r c d4)) (0, 0)).1
          ((nbrCoords r c d4).getD (argmaxSlope (derivList h nx r c d4)) (0, 0)).2
        then some (-1)
        else some ((((nbrCoords r c d4).getD (argmaxSlope (derivList h nx r c d4)) (0, 0)).1 * nx +
          ((nbrCoords r c d4).getD (argmaxSlope (derivList h nx r c d4)) (0, 0)).2 : ℕ) : ℤ)) := by
  have hc : c < nx := by obtain ⟨_, _, _, h4⟩ := hint; omega
  have hi := interior_lt ny nx r c hint
  have hne : derivList h nx r c d4 ≠ [] := by
    obtain ⟨s, hs, _⟩ := List.any_eq_true.mp hany
    exact List.ne_nil_of_mem hs
  have hk := argmaxSlope_lt_length (derivList h nx r c d4) hne
  rw [get_flow_direction_indices_getD h step ny nx d4 _ hi,
    remove_out_of_boundary_flow_getD _ ny nx d4 r c hi hc,
    get_flow_directions_interior h step ny nx d4 r c hint, hany]
  obtain ⟨h1, h2, h3, h4⟩ := hint
  cases d4
  · have hk8 : argmaxSlope (derivList h nx r c false) < 8 := by
      rw [derivList_length] at hk
      simpa using hk
    simp only [Bool.false_eq_true, if_false, if_true]
    generalize hkeq : argmaxSlope (derivList h nx r c false) = k at hk8 ⊢
    interval_cases k
    · -- k = 0: neighbor (r - 1, c + 1)
      have hnb : (nbrCoords r c false).getD 0 (0, 0) = (r - 1, c + 1) := by
        simp [nbrCoords]
      rw [hnb]
      split_ifs with hC hB hB
      · simp [translationOf]
      · exfalso
        apply hB
        norm_num [topCodes, rightCodes, bottomCodes, leftCodes] at hC
        show r - 1 = 0 ∨ r - 1 + 1 = ny ∨ c + 1 = 0 ∨ c + 1 + 1 = nx
        omega
      · exfalso
        apply hC
        have hB2 : r - 1 = 0 ∨ r - 1 + 1 = ny ∨ c + 1 = 0 ∨ c + 1 + 1 = nx := hB
        norm_num [topCodes, rightCodes, bottomCodes, leftCodes]
        omega
      · norm_num [translationOf]
        push_cast [Nat.cast_sub h1, Nat.cast_sub h3]
        ring
    · -- k = 1: neighbor (r, c + 1)
      have hnb : (nbrCoords r c false).getD 1 (0, 0) = (r, c + 1) := by
        simp [nbrCoords]
      rw [hnb]
      split_ifs with hC hB hB
      · simp [translationOf]
      · exfalso
        apply hB
        norm_num [topCodes, rightCodes, bottomCodes, leftCodes] at hC
        show r = 0 ∨ r + 1 = ny ∨ c + 1 = 0 ∨ c + 1 + 1 = nx
        omega
      · exfalso
        apply hC
        have hB2 : r = 0 ∨ r + 1 = ny ∨ c + 1 = 0 ∨ c + 1 + 1 = nx := hB
        norm_num [topCodes, rightCodes, bottomCodes, leftCodes]
        omega
      · norm_num [translationOf]
        push_cast [Nat.cast_sub h1, Nat.cast_sub h3]
        ring
    · -- k = 2: neighbor (r + 1, c + 1)
      have hnb : (nbrCoords r c false).getD 2 (0, 0) = (r + 1, c + 1) := by
        simp [nbrCoords]
      rw [hnb]
      split_ifs with hC hB hB
      · simp [translationOf]
      · exfalso
        apply hB
        norm_num [topCodes, rightCodes, bottomCodes, leftCodes] at hC
        show r + 1 = 0 ∨ r + 1 + 1 = ny ∨ c + 1 = 0 ∨ c + 1 + 1 = nx
        omega
      · exfalso
        apply hC
        have hB2 : r + 1 = 0 ∨ r + 1 + 1 = ny ∨ c + 1 = 0 ∨ c + 1 + 1 = nx := hB
        norm_num [topCodes, rightCodes, bottomCodes, leftCodes]
        omega
      · norm_num [translationOf]
        push_cast [Nat.cast_sub h1, Nat.cast_sub h3]
        ring
    · -- k = 3: neighbor (r + 1, c)
      have hnb : (nbrCoords r c false).getD 3 (0, 0) = (r + 1, c) := by
        simp [nbrCoords]
      rw [hnb]
      split_ifs with hC hB hB
      · simp [translationOf]
      · exfalso
        apply hB
        norm_num [topCodes, rightCodes, bottomCodes, leftCodes] at hC
        show r + 1 = 0 ∨ r + 1 + 1 = ny ∨ c = 0 ∨ c + 1 = nx
        omega
      · exfalso
        apply hC
        have hB2 : r + 1 = 0 ∨ r + 1 + 1 = ny ∨ c = 0 ∨ c + 1 = nx := hB
        norm_num [topCodes, rightCodes, bottomCodes, leftCodes]
        omega
      · norm_num [translationOf]
        push_cast [Nat.cast_sub h1, Nat.cast_sub h3]
        ring
    · -- k = 4: neighbor (r + 1, c - 1)
      have hnb : (nbrCoords r c false).getD 4 (0, 0) = (r + 1, c - 1) := by
        simp [nbrCoords]
      rw [hnb]
      split_ifs with hC hB hB
      · simp [translationOf]
      · exfalso
        apply hB
        norm_num [topCodes, rightCodes, bottomCodes, leftCodes] at hC
        show r + 1 = 0 ∨ r + 1 + 1 = ny ∨ c - 1 = 0 ∨ c - 1 + 1 = nx
        omega
      · exfalso
        apply hC
        have hB2 : r + 1 = 0 ∨ r + 1 + 1 = ny ∨ c - 1 = 0 ∨ c - 1 + 1 = nx := hB
        norm_num [topCodes, rightCodes, bottomCodes, leftCodes]
        omega
      · norm_num [translationOf]
        push_cast [Nat.cast_sub h1, Nat.cast_sub h3]
        ring
    · -- k = 5: neighbor (r, c - 1)
      have hnb : (nbrCoords r c false).getD 5 (0, 0) = (r, c - 1) := by
        simp [nbrCoords]
      rw [hnb]
      split_ifs with hC hB hB
      · simp [translationOf]
      · exfalso
        apply hB
        norm_num [topCodes, rightCodes, bottomCodes, leftCodes] at hC
        show r = 0 ∨ r + 1 = ny ∨ c - 1 = 0 ∨ c - 1 + 1 = nx
        omega
      · exfalso
        apply hC
        have hB2 : r = 0 ∨ r + 1 = ny ∨ c - 1 = 0 ∨ c - 1 + 1 = nx := hB
        norm_num [topCodes, rightCodes, bottomCodes, leftCodes]
        omega
      · norm_num [translationOf]
        push_cast [Nat.cast_sub h1, Nat.cast_sub h3]
        ring
    · -- k = 6: neighbor (r - 1, c - 1)
      have hnb : (nbrCoords r c false).getD 6 (0, 0) = (r - 1, c - 1) := by
        simp [nbrCoords]
      rw [hnb]
      split_ifs with hC hB hB
      · simp [translationOf]
      · exfalso
        apply hB
        norm_num [topCodes, rightCodes, bottomCodes, leftCodes] at hC
        show r - 1 = 0 ∨ r - 1 + 1 = ny ∨ c - 1 = 0 ∨ c - 1 + 1 = nx
        omega
      · exfalso
        apply hC
        have hB2 : r - 1 = 0 ∨ r - 1 + 1 = ny ∨ c - 1 = 0 ∨ c - 1 + 1 = nx := hB
        norm_num [topCodes, rightCodes, bottomCodes, leftCodes]
        omega
      · norm_num [translationOf]
        push_cast [Nat.cast_sub h1, Nat.cast_sub h3]
        ring
    · -- k = 7: neighbor (r - 1, c)
      have hnb : (nbrCoords r c false).getD 7 (0, 0) = (r - 1, c) := by
        simp [nbrCoords]
      rw [hnb]
      split_ifs with hC hB hB
      · simp [translationOf]
      · exfalso
        apply hB
        norm_num [topCodes, rightCodes, bottomCodes, leftCodes] at hC
        show r - 1 = 0 ∨ r - 1 + 1 = ny ∨ c = 0 ∨ c + 1 = nx
        omega
      · exfalso
        apply hC
        have hB2 : r - 1 = 0 ∨ r - 1 + 1 = ny ∨ c = 0 ∨ c + 1 = nx := hB
        norm_num [topCodes, rightCodes, bottomCodes, leftCodes]
        omega
      · norm_num [translationOf]
        push_cast [Nat.cast_sub h1, Nat.cast_sub h3]
        ring
  · have hk4 : argmaxSlope (derivList h nx r c true) < 4 := by
      rw [derivList_length] at hk
      simpa using hk
    simp only [if_true]
    generalize hkeq : argmaxSlope (derivList h nx r c true) = k at hk4 ⊢
    interval_cases k
    · -- k = 0: neighbor (r, c + 1)
      have hnb : (nbrCoords r c true).getD 0 (0, 0) = (r, c + 1) := by
        simp [nbrCoords]
      rw [hnb]
      split_ifs with hC hB hB
      · simp [translationOf]
      · exfalso
        apply hB
        norm_num [topCodes, rightCodes, bottomCodes, leftCodes] at hC
        show r = 0 ∨ r + 1 = ny ∨ c + 1 = 0 ∨ c + 1 + 1 = nx
        omega
      · exfalso
        apply hC
        have hB2 : r = 0 ∨ r + 1 = ny ∨ c + 1 = 0 ∨ c + 1 + 1 = nx := hB
        norm_num [topCodes, rightCodes, bottomCodes, leftCodes]
        omega
      · norm_num [translationOf]
        push_cast [Nat.cast_sub h1, Nat.cast_sub h3]
        ring
    · -- k = 1: neighbor (r + 1, c)
      have hnb : (nbrCoords r c true).getD 1 (0, 0) = (r + 1, c) := by
        simp [nbrCoords]
      rw [hnb]
      split_ifs with hC hB hB
      · simp [translationOf]
      · exfalso
        apply hB
        norm_num [topCodes, rightCodes, bottomCodes, leftCodes] at hC
        show r + 1 = 0 ∨ r + 1 + 1 = ny ∨ c = 0 ∨ c + 1 = nx
        omega
      · exfalso
        apply hC
        have hB2 : r + 1 = 0 ∨ r + 1 + 1 = ny ∨ c = 0 ∨ c + 1 = nx := hB
        norm_num [topCodes, rightCodes, bottomCodes, leftCodes]
        omega
      · norm_num [translationOf]
        push_cast [Nat.cast_sub h1, Nat.cast_sub h3]
        ring
    · -- k = 2: neighbor (r, c - 1)
      have hnb : (nbrCoords r c true).getD 2 (0, 0) = (r, c - 1) := by
        simp [nbrCoords]
      rw [hnb]
      split_ifs with hC hB hB
      · simp [translationOf]
      · exfalso
        apply hB
        norm_num [topCodes, rightCodes, bottomCodes, leftCodes] at hC
        show r = 0 ∨ r + 1 = ny ∨ c - 1 = 0 ∨ c - 1 + 1 = nx
        omega
      · exfalso
        apply hC
        have hB2 : r = 0 ∨ r + 1 = ny ∨ c - 1 = 0 ∨ c - 1 + 1 = nx := hB
        norm_num [topCodes, rightCodes, bottomCodes, leftCodes]
        omega
      · norm_num [translationOf]
        push_cast [Nat.cast_sub h1, Nat.cast_sub h3]
        ring
    · -- k = 3: neighbor (r - 1, c)
      have hnb : (nbrCoords r c true).getD 3 (0, 0) = (r - 1, c) := by
        simp [nbrCoords]
      rw [hnb]
      split_ifs with hC hB hB
      · simp [translationOf]
      · exfalso
        apply hB
        norm_num [topCodes, rightCodes, bottomCodes, leftCodes] at hC
        show r - 1 = 0 ∨ r - 1 + 1 = ny ∨ c = 0 ∨ c + 1 = nx
        omega
      · exfalso
        apply hC
        have hB2 : r - 1 = 0 ∨ r - 1 + 1 = ny ∨ c = 0 ∨ c + 1 = nx := hB
        norm_num [topCodes, rightCodes, bottomCodes, leftCodes]
        omega
      · norm_num [translationOf]
        push_cast [Nat.cast_sub h1, Nat.cast_sub h3]
        ring

/-- Pointwise behaviour of the flow field at an interior cell (helper shared
by the flow-field claims): `-1` when no slope is positive, else the first
argmax neighbor in canonical order, rewritten to `-1` when that neighbor sits
on the boundary ring, else its linear index. -/
theorem flow_pointwise_aux (h : Heights ℚ) (stepQ : ℚ) (ny nx : ℕ) (d4 : Bool)
    (r c : ℕ) (hint : isInterior ny nx r c) (step : ℝ) (hstep : 0 < step) :
    ((∀ s ∈ derivList h nx r c d4, slopeVal step s ≤ 0) →
      (get_flow_direction_indices h stepQ ny nx d4).getD (r * nx + c) none = some (-1)) ∧
    ((∃ s ∈ derivList h nx r c d4, 0 < slopeVal step s) →
      ∃ k, ∃ hk : k < (derivList h nx r c d4).length,
        (∀ j, ∀ hj : j < (derivList h nx r c d4).length,
          slopeVal step ((derivList h nx r c d4).get ⟨j, hj⟩) ≤
            slopeVal step ((derivList h nx r c d4).get ⟨k, hk⟩)) ∧
        (∀ j, ∀ hj : j < (derivList h nx r c d4).length, j < k →
          slopeVal step ((derivList h nx r c d4).get ⟨j, hj⟩) <
            slopeVal step ((derivList h nx r c d4).get ⟨k, hk⟩)) ∧
        (get_flow_direction_indices h stepQ ny nx d4).getD (r * nx + c) none =
          (if isBoundaryCell ny nx ((nbrCoords r c d4).getD k (0, 0)).1
              ((nbrCoords r c d4).getD k (0, 0)).2 then some (-1)
           else some ((((nbrCoords r c d4).getD k (0, 0)).1 * nx +
              ((nbrCoords r c d4).getD k (0, 0)).2 : ℕ) : ℤ))) := by
  constructor
  · intro hall
    have hany : (derivList h nx r c d4).any (fun s => decide (0 < s.delta)) = false := by
      rw [List.any_eq_false]
      intro s hs
      simp only [decide_eq_true_eq]
      have h5 := hall s hs
      rw [slopeVal_nonpos_iff hstep] at h5
      exact not_lt.mpr h5
    exact flow_value_nopos h stepQ ny nx d4 r c hint hany
  · rintro ⟨s0, hs0mem, hs0pos⟩
    have hpos0 : 0 < s0.delta := (slopeVal_pos_iff hstep s0).mp hs0pos
    have hne : derivList h nx r c d4 ≠ [] := List.ne_nil_of_mem hs0mem
    have hany : (derivList h nx r c d4).any (fun s => decide (0 < s.delta)) = true := by
      rw [List.any_eq_true]
      exact ⟨s0, hs0mem, by simpa using hpos0⟩
    obtain ⟨hk, hmax, hfirst⟩ := argmaxSlope_spec _ hne
    refine ⟨argmaxSlope (derivList h nx r c d4), hk, ?_, ?_, ?_⟩
    · intro j hj
      rw [slopeVal_le_iff_one hstep]
      exact hmax j hj
    · intro j hj hjk
      rw [slopeVal_lt_iff_one hstep]
      exact hfirst j hj hjk
    · exact flow_value_interior h stepQ ny nx d4 r c hint hany

theorem get_flow_directions_getD (h : Heights α) (step : α) (ny nx : ℕ)
    (d4 : Bool) (i : ℕ) (hi : i < ny * nx) :
    (get_flow_directions h step ny nx d4).getD i none =
      (if isInterior ny nx (i / nx) (i % nx) then
        (let slopes := derivList h nx (i / nx) (i % nx) d4
         if slopes.any (fun s => 0 < s.delta) then
           (if d4 then some ((argmaxSlope slopes : ℤ) + 1)
            else some (2 ^ argmaxSlope slopes))
         else some (-1))
       else none) :=
  getD_range_map _ _ _ _ hi

/-- The numerator of the `k`-th derivative is the height difference to the
`k`-th canonical neighbor. -/
theorem derivList_delta_get (h : Heights α) (nx r c : ℕ) (d4 : Bool) (k : ℕ)
    (hk : k < (derivList h nx r c d4).length) :
    ((derivList h nx r c d4).get ⟨k, hk⟩).delta =
      hAt h nx r c -
        hAt h nx ((nbrCoords r c d4).getD k (0, 0)).1 ((nbrCoords r c d4).getD k (0, 0)).2 := by
  have hlen := derivList_length h nx r c d4
  cases d4
  · have hk8 : k < 8 := by rw [hlen] at hk; simpa using hk
    interval_cases k <;> rfl
  · have hk4 : k < 4 := by rw [hlen] at hk; simpa using hk
    interval_cases k <;> rfl

/-- Whenever the recomputed flow field sends cell `i` to an actual cell `j`
(not a sentinel), the target is strictly lower: the chosen derivative is
positive. Helper behind the drainage-monotonicity claim. -/
theorem flow_target_lower (h : Heights α) (step : α) (ny nx : ℕ) (d4 : Bool)
    (i : ℕ) (j : ℤ)
    (hj : (get_flow_direction_indices h step ny nx d4).getD i none = some j)
    (hne : j ≠ -1) :
    0 ≤ j ∧ hAtZ h j < h.getD i 0 := by
  -- the index is in range, else the list lookup defaults to `none`
  have hi : i < ny * nx := by
    by_contra hcon
    push_neg at hcon
    rw [get_flow_direction_indices, getD_range_map_ge _ _ _ _ hcon] at hj
    exact Option.noConfusion hj
  have hnx : 0 < nx := by
    rcases Nat.eq_zero_or_pos nx with h0 | h0
    · subst h0; omega
    · exact h0
  have hieq : i = (i / nx) * nx + (i % nx) := by
    rw [Nat.mul_comm]
    exact (Nat.div_add_mod i nx).symm
  -- the cell is interior, else the flow value is `none`
  have hint : isInterior ny nx (i / nx) (i % nx) := by
    by_contra hcon
    rw [hieq] at hj hi
    rw [get_flow_direction_indices_getD h step ny nx d4 _ hi,
      remove_out_of_boundary_flow_getD _ ny nx d4 _ _ hi (Nat.mod_lt i hnx),
      get_flow_directions_getD h step ny nx d4 _ hi] at hj
    rw [(linear_index_eq nx (i / nx) (i % nx) (Nat.mod_lt i hnx)).1,
      (linear_index_eq nx (i / nx) (i % nx) (Nat.mod_lt i hnx)).2, if_neg hcon] at hj
    exact Option.noConfusion hj
  rcases Bool.eq_false_or_eq_true
      ((derivList h nx (i / nx) (i % nx) d4).any (fun s => decide (0 < s.delta))) with
    hany | hany
  -- handled below: the `true` case comes first out of this disjunction
  case inr =>
    rw [hieq] at hj
    rw [flow_value_nopos h step ny nx d4 (i / nx) (i % nx) hint hany] at hj
    exact absurd (Option.some.inj hj).symm hne
  -- some positive slope: the chosen argmax slope is positive
  case inl =>
    rw [hieq] at hj
    rw [flow_value_interior h step ny nx d4 (i / nx) (i % nx) hint hany] at hj
    set k := argmaxSlope (derivList h nx (i / nx) (i % nx) d4) with hkdef
    set p := (nbrCoords (i / nx) (i % nx) d4).getD k (0, 0) with hp
    by_cases hbnd : isBoundaryCell ny nx p.1 p.2
    · rw [if_pos hbnd] at hj
      exact absurd (Option.some.inj hj).symm hne
    · rw [if_neg hbnd] at hj
      have hjval : j = ((p.1 * nx + p.2 : ℕ) : ℤ) := (Option.some.inj hj).symm
      have hnenil : derivList h nx (i / nx) (i % nx) d4 ≠ [] := by
        obtain ⟨s, hs, _⟩ := List.any_eq_true.mp hany
        exact List.ne_nil_of_mem hs
      have hk := argmaxSlope_lt_length (derivList h nx (i / nx) (i % nx) d4) hnenil
      have hex : ∃ s ∈ derivList h nx (i / nx) (i % nx) d4, 0 < s.delta := by
        obtain ⟨s, hs, hs2⟩ := List.any_eq_true.mp hany
        exact ⟨s, hs, of_decide_eq_true hs2⟩
      have hkpos := argmaxSlope_pos (derivList h nx (i / nx) (i % nx) d4) hnenil hex hk
      rw [derivList_delta_get h nx (i / nx) (i % nx) d4 k hk] at hkpos
      rw [← hp] at hkpos
      have hlt : hAt h nx p.1 p.2 < hAt h nx (i / nx) (i % nx) := by linarith
      constructor
      · rw [hjval]; positivity
      · rw [hjval]
        rw [hAt_eq_getD h nx i] at hlt
        unfold hAtZ
        rw [if_pos (by positivity)]
        have : ((p.1 * nx + p.2 : ℕ) : ℤ).toNat = p.1 * nx + p.2 := by omega
        rw [this]
        exact hlt


/-- C5: For every interior cell, `get_flow_direction_indices` assigns the
pit sentinel `-1` when every slope `(h[i] - h[nb]) / distance(i, nb)` to a
neighbor is `≤ 0`; otherwise it assigns the linear index of the first
neighbor in the canonical neighbor order achieving the maximum slope, and
whenever that chosen neighbor lies in the boundary ring the flow is
rewritten to the pit sentinel instead. -/
theorem flow_field_spec (h : Heights ℚ) (stepQ : ℚ) (ny nx : ℕ) (d4 : Bool)
    (r c : ℕ) (hint : isInterior ny nx r c) (step : ℝ) (hstep : 0 < step) :
    ((∀ s ∈ derivList h nx r c d4, slopeVal step s ≤ 0) →
      (get_flow_direction_indices h stepQ ny nx d4).getD (r * nx + c) none = some (-1)) ∧
    ((∃ s ∈ derivList h nx r c d4, 0 < slopeVal step s) →
      ∃ k, ∃ hk : k < (derivList h nx r c d4).length,
        (∀ j, ∀ hj : j < (derivList h nx r c d4).length,
          slopeVal step ((derivList h nx r c d4).get ⟨j, hj⟩) ≤
            slopeVal step ((derivList h nx r c d4).get ⟨k, hk⟩)) ∧
        (∀ j, ∀ hj : j < (derivList h nx r c d4).length, j < k →
          slopeVal step ((derivList h nx r c d4).get ⟨j, hj⟩) <
            slopeVal step ((derivList h nx r c d4).get ⟨k, hk⟩)) ∧
        (get_flow_direction_indices h stepQ ny nx d4).getD (r * nx + c) none =
          (if isBoundaryCell ny nx ((nbrCoords r c d4).getD k (0, 0)).1
              ((nbrCoords r c d4).getD k (0, 0)).2 then some (-1)
           else some ((((nbrCoords r c d4).getD k (0, 0)).1 * nx +
              ((nbrCoords r c d4).getD k (0, 0)).2 : ℕ) : ℤ))) :=
  flow_pointwise_aux h stepQ ny nx d4 r c hint step hstep

def flowWitnessRaster : Heights ℚ := [0, 0, 0, 0, 1, 0, 0, 0, 0]

theorem flow_field_spec_witness :
    isInterior 3 3 1 1 ∧ (0 : ℝ) < 1 ∧
(    ((∀ s ∈ derivList flowWitnessRaster 3 1 1 false, slopeVal 1 s ≤ 0) →
      (get_flow_direction_indices flowWitnessRaster (10 : ℚ) 3 3 false).getD (1 * 3 + 1) none = some (-1)) ∧
    ((∃ s ∈ derivList flowWitnessRaster 3 1 1 false, 0 < slopeVal 1 s) →
      ∃ k, ∃ hk : k < (derivList flowWitnessRaster 3 1 1 false).length,
        (∀ j, ∀ hj : j < (derivList flowWitnessRaster 3 1 1 false).length,
          slopeVal 1 ((derivList flowWitnessRaster 3 1 1 false).get ⟨j, hj⟩) ≤
            slopeVal 1 ((derivList flowWitnessRaster 3 1 1 false).get ⟨k, hk⟩)) ∧
        (∀ j, ∀ hj : j < (derivList flowWitnessRaster 3 1 1 false).length, j < k →
          slopeVal 1 ((derivList flowWitnessRaster 3 1 1 false).get ⟨j, hj⟩) <
            slopeVal 1 ((derivList flowWitnessRaster 3 1 1 false).get ⟨k, hk⟩)) ∧
        (get_flow_direction_indices flowWitnessRaster (10 : ℚ) 3 3 false).getD (1 * 3 + 1) none =
          (if isBoundaryCell 3 3 ((nbrCoords 1 1 false).getD k (0, 0)).1
              ((nbrCoords 1 1 false).getD k (0, 0)).2 then some (-1)
           else some ((((nbrCoords 1 1 false).getD k (0, 0)).1 * 3 +
              ((nbrCoords 1 1 false).getD k (0, 0)).2 : ℕ) : ℤ)))) :=
  ⟨by decide, one_pos,
    flow_field_spec flowWitnessRaster 10 3 3 false 1 1 (by decide) 1 one_pos⟩


/-! ## Endpoint labeller (C8) -/

/-- Signed lookup into a label/flow array; negative indices give `none`
(the source only ever indexes with nonnegative cast values here). -/
def optAtZ (l : List (Option ℤ)) (j : ℤ) : Option ℤ :=
  if 0 ≤ j then l.getD j.toNat none else none

/-- First phase of `update_terminal_nodes`: an unlabelled cell whose
downslope neighbor is a minimum (`downslope_neighbors[next] == -1`) is
labelled with that neighbor. -/
def update_phase1 (flow : List (Option ℤ)) (n : ℕ) (t : List (Option ℤ)) :
    List (Option ℤ) :=
  (List.range n).map fun i =>
    match t.getD i none with
    | some v => some v
    | none =>
      match flow.getD i none with
      | some j => if optAtZ flow j = some (-1) then some j else none
      | none => none

/-- One sweep of `update_terminal_nodes`.  The second phase reads the array
already updated by the first phase (as the source does) and copies the
downslope neighbor's label when it is a nonnegative cell index. -/
def update_terminal_nodes (flow : List (Option ℤ)) (n : ℕ) (t : List (Option ℤ)) :
    List (Option ℤ) :=
  let t1 := update_phase1 flow n t
  (List.range n).map fun i =>
    match t1.getD i none with
    | some v => some v
    | none =>
      match flow.getD i none with
      | some j =>
        (match optAtZ t1 j with
         | some m => if 0 ≤ m then some m else none
         | none => none)
      | none => none

/-- Initial labels of `get_node_endpoints`: minima labelled with their own
linear index, the domain boundary with the `-2` marker (written after the
minima, hence taking precedence), everything else unlabelled. -/
def init_terminal_nodes (flow : List (Option ℤ)) (ny nx : ℕ) : List (Option ℤ) :=
  (List.range (ny * nx)).map fun i =>
    if isBoundaryCell ny nx (i / nx) (i % nx) then some (-2)
    else if flow.getD i none = some (-1) then some (i : ℤ)
    else none

/-- The `while num_inserted > 0` loop: sweep until a sweep inserts nothing
(equivalently, returns the array unchanged).  The fuel `n + 1` is proved
sufficient below (each productive sweep labels at least one new cell). -/
def endpointLoop (flow : List (Option ℤ)) (n : ℕ) : ℕ → List (Option ℤ) → List (Option ℤ)
  | 0, t => t
  | fuel + 1, t =>
    let t2 := update_terminal_nodes flow n t
    if t2 = t then t else endpointLoop flow n fuel t2

/-- `get_node_endpoints`: iterate sweeps to the fixed point, then reset the
boundary marker `-2` back to `None`. -/
def get_node_endpoints (flow : List (Option ℤ)) (ny nx : ℕ) : List (Option ℤ) :=
  let t := endpointLoop flow (ny * nx) (ny * nx + 1) (init_terminal_nodes flow ny nx)
  (List.range (ny * nx)).map fun i =>
    if isBoundaryCell ny nx (i / nx) (i % nx) then none else t.getD i none

/-- The flow path from `i` reaches the minimum (pit) cell `m`. -/
inductive Reaches (flow : List (Option ℤ)) : ℕ → ℕ → Prop
  | pit (i : ℕ) : flow.getD i none = some (-1) → Reaches flow i i
  | step (i j m : ℕ) : flow.getD i none = some (j : ℤ) → Reaches flow j m →
      Reaches flow i m


theorem update_phase1_getD (flow : List (Option ℤ)) (n : ℕ) (t : List (Option ℤ))
    (i : ℕ) (hi : i < n) :
    (update_phase1 flow n t).getD i none =
      (match t.getD i none with
       | some v => some v
       | none =>
         match flow.getD i none with
         | some j => if optAtZ flow j = some (-1) then some j else none
         | none => none) :=
  getD_range_map _ _ _ _ hi

theorem update_terminal_nodes_getD (flow : List (Option ℤ)) (n : ℕ)
    (t : List (Option ℤ)) (i : ℕ) (hi : i < n) :
    (update_terminal_nodes flow n t).getD i none =
      (match (update_phase1 flow n t).getD i none with
       | some v => some v
       | none =>
         match flow.getD i none with
         | some j =>
           (match optAtZ (update_phase1 flow n t) j with
            | some m => if 0 ≤ m then some m else none
            | none => none)
         | none => none) := by
  unfold update_terminal_nodes
  exact getD_range_map _ _ _ _ hi

theorem update_phase1_some (flow : List (Option ℤ)) (n : ℕ) (t : List (Option ℤ))
    (i : ℕ) (v : ℤ) (hi : i < n) (hv : t.getD i none = some v) :
    (update_phase1 flow n t).getD i none = some v := by
  rw [update_phase1_getD flow n t i hi, hv]

theorem update_some (flow : List (Option ℤ)) (n : ℕ) (t : List (Option ℤ))
    (i : ℕ) (v : ℤ) (hi : i < n) (hv : t.getD i none = some v) :
    (update_terminal_nodes flow n t).getD i none = some v := by
  rw [update_terminal_nodes_getD flow n t i hi, update_phase1_some flow n t i v hi hv]

theorem update_none (flow : List (Option ℤ)) (n : ℕ) (t : List (Option ℤ))
    (i : ℕ) (hi : i < n)
    (h : (update_terminal_nodes flow n t).getD i none = none) :
    t.getD i none = none := by
  cases ht : t.getD i none with
  | none => rfl
  | some v => rw [update_some flow n t i v hi ht] at h; exact Option.noConfusion h

theorem update_length (flow : List (Option ℤ)) (n : ℕ) (t : List (Option ℤ)) :
    (update_terminal_nodes flow n t).length = n := by
  unfold update_terminal_nodes
  simp

/-- Number of still-unlabelled cells; the sweep measure. -/
def unlabCount (n : ℕ) (t : List (Option ℤ)) : ℕ :=
  (List.range n).countP (fun i => t.getD i none = none)

theorem countP_strict_lt {l : List ℕ} {p q : ℕ → Bool}
    (hsub : ∀ i ∈ l, q i = true → p i = true) {i0 : ℕ} (hi0 : i0 ∈ l)
    (hp : p i0 = true) (hq : q i0 = false) : l.countP q < l.countP p := by
  induction l with
  | nil => simp at hi0
  | cons x xs ih =>
    rw [List.countP_cons, List.countP_cons]
    rcases List.mem_cons.mp hi0 with rfl | hmem
    · have hle : xs.countP q ≤ xs.countP p :=
        List.countP_mono_left (fun a ha => hsub a (List.mem_cons_of_mem _ ha))
      rw [hp, hq]
      have e1 : (if (true : Bool) = true then 1 else 0) = 1 := rfl
      have e2 : (if (false : Bool) = true then 1 else 0) = 0 := rfl
      rw [e1, e2]
      omega
    · have hih := ih (fun a ha hqa => hsub a (List.mem_cons_of_mem _ ha) hqa) hmem
      have hhead : (if q x = true then 1 else 0) ≤ (if p x = true then 1 else 0) := by
        by_cases hqx : q x = true
        · rw [if_pos hqx, if_pos (hsub x (List.mem_cons_self x xs) hqx)]
        · rw [if_neg hqx]
          exact Nat.zero_le _
      omega

theorem update_ne_count (flow : List (Option ℤ)) (n : ℕ) (t : List (Option ℤ))
    (hlt : t.length = n) (hne : update_terminal_nodes flow n t ≠ t) :
    unlabCount n (update_terminal_nodes flow n t) < unlabCount n t := by
  have hlu := update_length flow n t
  have hdiff : ∃ i < n, (update_terminal_nodes flow n t).getD i none ≠ t.getD i none := by
    by_contra hcon
    push_neg at hcon
    apply hne
    apply List.ext_getElem (by omega)
    intro i hi1 hi2
    have h3 := hcon i (by omega)
    rw [List.getD_eq_getElem _ _ hi1, List.getD_eq_getElem _ _ hi2] at h3
    exact h3
  obtain ⟨i0, hi0, hd⟩ := hdiff
  have ht0 : t.getD i0 none = none := by
    cases h : t.getD i0 none with
    | none => rfl
    | some v => exact absurd (update_some flow n t i0 v hi0 h) (h ▸ hd)
  have hu : (update_terminal_nodes flow n t).getD i0 none ≠ none := fun hc =>
    hd (hc.trans ht0.symm)
  show (List.range n).countP
      (fun i => (update_terminal_nodes flow n t).getD i none = none) <
    (List.range n).countP (fun i => t.getD i none = none)
  apply countP_strict_lt
  · intro i hi hq
    simp only [decide_eq_true_eq] at hq ⊢
    exact update_none flow n t i (List.mem_range.mp hi) hq
  · exact List.mem_range.mpr hi0
  · simp only [decide_eq_true_eq]
    exact ht0
  · simp only [decide_eq_false_iff_not, decide_eq_true_eq]
    exact hu

theorem endpointLoop_some (flow : List (Option ℤ)) (n : ℕ) :
    ∀ (fuel : ℕ) (t : List (Option ℤ)) (i : ℕ) (v : ℤ), i < n →
      t.getD i none = some v → (endpointLoop flow n fuel t).getD i none = some v := by
  intro fuel
  induction fuel with
  | zero => intro t i v _ hv; exact hv
  | succ fuel ih =>
    intro t i v hi hv
    unfold endpointLoop
    by_cases heq : update_terminal_nodes flow n t = t
    · rw [if_pos heq]; exact hv
    · rw [if_neg heq]
      exact ih _ i v hi (update_some flow n t i v hi hv)

theorem endpointLoop_length (flow : List (Option ℤ)) (n : ℕ) :
    ∀ (fuel : ℕ) (t : List (Option ℤ)), t.length = n →
      (endpointLoop flow n fuel t).length = n := by
  intro fuel
  induction fuel with
  | zero => intro t ht; exact ht
  | succ fuel ih =>
    intro t ht
    unfold endpointLoop
    by_cases heq : update_terminal_nodes flow n t = t
    · rw [if_pos heq]; exact ht
    · rw [if_neg heq]; exact ih _ (update_length flow n t)

theorem endpointLoop_fix (flow : List (Option ℤ)) (n : ℕ) :
    ∀ (fuel : ℕ) (t : List (Option ℤ)), t.length = n → unlabCount n t < fuel →
      update_terminal_nodes flow n (endpointLoop flow n fuel t) =
        endpointLoop flow n fuel t := by
  intro fuel
  induction fuel with
  | zero => intro t _ hcnt; omega
  | succ fuel ih =>
    intro t hlt hcnt
    unfold endpointLoop
    by_cases heq : update_terminal_nodes flow n t = t
    · rw [if_pos heq]; exact heq
    · rw [if_neg heq]
      exact ih _ (update_length flow n t)
        (by have := update_ne_count flow n t hlt heq; omega)

theorem unlabCount_le (n : ℕ) (t : List (Option ℤ)) : unlabCount n t ≤ n := by
  calc unlabCount n t ≤ (List.range n).length := List.countP_le_length _
    _ = n := List.length_range ..

/-- Labels recorded by the sweeps: `-2` only on the boundary, any other label
records the pit actually reached by the flow path. -/
def LabelInv (flow : List (Option ℤ)) (ny nx : ℕ) (t : List (Option ℤ)) : Prop :=
  ∀ i < ny * nx, ∀ v : ℤ, t.getD i none = some v →
    (v = -2 ∧ isBoundaryCell ny nx (i / nx) (i % nx)) ∨
    (∃ m : ℕ, v = (m : ℤ) ∧ Reaches flow i m)

theorem init_inv (flow : List (Option ℤ)) (ny nx : ℕ) :
    LabelInv flow ny nx (init_terminal_nodes flow ny nx) := by
  intro i hi v hv
  rw [init_terminal_nodes, getD_range_map _ _ _ _ hi] at hv
  split_ifs at hv with hb hm
  all_goals first
    | exact Or.inl ⟨(Option.some.inj hv).symm, hb⟩
    | exact Or.inr ⟨i, (Option.some.inj hv).symm, Reaches.pit i hm⟩
    | exact Option.noConfusion hv

theorem optAtZ_some {l : List (Option ℤ)} {j v : ℤ} (h : optAtZ l j = some v) :
    0 ≤ j ∧ l.getD j.toNat none = some v := by
  unfold optAtZ at h
  split_ifs at h with hj
  all_goals first
    | exact ⟨hj, h⟩
    | exact Option.noConfusion h

theorem phase1_inv (flow : List (Option ℤ)) (ny nx : ℕ) (t : List (Option ℤ))
    (hinv : LabelInv flow ny nx t) :
    LabelInv flow ny nx (update_phase1 flow (ny * nx) t) := by
  intro i hi v hv
  rw [update_phase1_getD flow _ t i hi] at hv
  split at hv
  next w hw => exact hinv i hi v (hw.trans (congrArg some (Option.some.inj hv)))
  next hw =>
    split at hv
    next j hf =>
      split_ifs at hv with hpit
      all_goals first
        | exact Option.noConfusion hv
        | (obtain ⟨hj0, hjp⟩ := optAtZ_some hpit
           refine Or.inr ⟨j.toNat, (Option.some.inj hv).symm.trans (by omega), ?_⟩
           refine Reaches.step i j.toNat j.toNat ?_ (Reaches.pit j.toNat hjp)
           rw [hf]
           congr 1
           omega)
    next hf => exact Option.noConfusion hv

theorem update_inv (flow : List (Option ℤ)) (ny nx : ℕ) (t : List (Option ℤ))
    (hinv : LabelInv flow ny nx t) :
    LabelInv flow ny nx (update_terminal_nodes flow (ny * nx) t) := by
  have h1 := phase1_inv flow ny nx t hinv
  intro i hi v hv
  rw [update_terminal_nodes_getD flow _ t i hi] at hv
  split at hv
  next w hw => exact h1 i hi v (hw.trans (congrArg some (Option.some.inj hv)))
  next hw =>
    split at hv
    next j hf =>
      split at hv
      next m0 hopt =>
        split_ifs at hv with hm0
        all_goals first
          | exact Option.noConfusion hv
          | (obtain ⟨hj0, hjt⟩ := optAtZ_some hopt
             have hjn : j.toNat < ny * nx := by
               by_contra hcon
               push_neg at hcon
               rw [update_phase1, getD_range_map_ge _ _ _ _ (by simpa using hcon)] at hjt
               exact Option.noConfusion hjt
             rcases h1 j.toNat hjn m0 hjt with ⟨hm2, _⟩ | ⟨mv, hveq, hr⟩
             · omega
             · subst hveq
               refine Or.inr ⟨mv, (Option.some.inj hv).symm, ?_⟩
               refine Reaches.step i j.toNat mv ?_ hr
               rw [hf]
               congr 1
               omega)
      next hopt => exact Option.noConfusion hv
    next hf => exact Option.noConfusion hv

theorem endpointLoop_inv (flow : List (Option ℤ)) (ny nx : ℕ) :
    ∀ (fuel : ℕ) (t : List (Option ℤ)), LabelInv flow ny nx t →
      LabelInv flow ny nx (endpointLoop flow (ny * nx) fuel t) := by
  intro fuel
  induction fuel with
  | zero => intro t ht; exact ht
  | succ fuel ih =>
    intro t ht
    unfold endpointLoop
    by_cases heq : update_terminal_nodes flow (ny * nx) t = t
    · rw [if_pos heq]; exact ht
    · rw [if_neg heq]
      exact ih _ (update_inv flow ny nx t ht)

theorem reaches_flow_some {flow : List (Option ℤ)} {i m : ℕ}
    (h : Reaches flow i m) : flow.getD i none ≠ none := by
  cases h with
  | pit _ hp => rw [hp]; exact fun hc => Option.noConfusion hc
  | step _ j _ hf _ => rw [hf]; exact fun hc => Option.noConfusion hc

theorem reaches_unique {flow : List (Option ℤ)} {i a b : ℕ}
    (ha : Reaches flow i a) (hb : Reaches flow i b) : a = b := by
  induction ha generalizing b with
  | pit i hp =>
    cases hb with
    | pit _ _ => rfl
    | step _ j' _ hf' _ =>
      rw [hp] at hf'
      have := Option.some.inj hf'
      omega
  | step i j m hf hr ih =>
    cases hb with
    | pit _ hp =>
      rw [hf] at hp
      have := Option.some.inj hp
      omega
    | step _ j' _ hf' hr' =>
      rw [hf] at hf'
      have hj : j = j' := by
        have := Option.some.inj hf'
        omega
      subst hj
      exact ih hr'


theorem get_node_endpoints_getD (flow : List (Option ℤ)) (ny nx i : ℕ)
    (hi : i < ny * nx) :
    (get_node_endpoints flow ny nx).getD i none =
      (if isBoundaryCell ny nx (i / nx) (i % nx) then none
       else (endpointLoop flow (ny * nx) (ny * nx + 1)
          (init_terminal_nodes flow ny nx)).getD i none) := by
  unfold get_node_endpoints
  exact getD_range_map _ _ _ _ hi

/-- C8: for every flow-direction field (with boundary cells carrying `None`),
the endpoint labeller terminates — the iterated sweep reaches a fixed point
of `update_terminal_nodes` — and at termination every pit cell is labelled
with itself, every non-boundary cell whose flow path reaches a pit cell is
labelled with that pit cell's linear index, and every domain-boundary cell
carries `None` in the result. -/
theorem endpoint_labeller_spec (flow : List (Option ℤ)) (ny nx : ℕ)
    (hlen : flow.length = ny * nx)
    (hbnd : ∀ i, i < ny * nx → isBoundaryCell ny nx (i / nx) (i % nx) →
      flow.getD i none = none) :
    (update_terminal_nodes flow (ny * nx)
        (endpointLoop flow (ny * nx) (ny * nx + 1) (init_terminal_nodes flow ny nx)) =
      endpointLoop flow (ny * nx) (ny * nx + 1) (init_terminal_nodes flow ny nx)) ∧
    (∀ i, i < ny * nx → ¬ isBoundaryCell ny nx (i / nx) (i % nx) →
      flow.getD i none = some (-1) →
      (get_node_endpoints flow ny nx).getD i none = some (i : ℤ)) ∧
    (∀ i m : ℕ, i < ny * nx → ¬ isBoundaryCell ny nx (i / nx) (i % nx) →
      Reaches flow i m → (get_node_endpoints flow ny nx).getD i none = some (m : ℤ)) ∧
    (∀ i, i < ny * nx → isBoundaryCell ny nx (i / nx) (i % nx) →
      (get_node_endpoints flow ny nx).getD i none = none) := by
  have hlent0 : (init_terminal_nodes flow ny nx).length = ny * nx := by
    unfold init_terminal_nodes
    simp
  have hfix : update_terminal_nodes flow (ny * nx)
      (endpointLoop flow (ny * nx) (ny * nx + 1) (init_terminal_nodes flow ny nx)) =
      endpointLoop flow (ny * nx) (ny * nx + 1) (init_terminal_nodes flow ny nx) :=
    endpointLoop_fix flow (ny * nx) (ny * nx + 1) _ hlent0
      (Nat.lt_succ_of_le (unlabCount_le (ny * nx) _))
  have hinv : LabelInv flow ny nx
      (endpointLoop flow (ny * nx) (ny * nx + 1) (init_terminal_nodes flow ny nx)) :=
    endpointLoop_inv flow ny nx (ny * nx + 1) _ (init_inv flow ny nx)
  have hC : ∀ i m : ℕ, Reaches flow i m → i < ny * nx →
      ¬ isBoundaryCell ny nx (i / nx) (i % nx) →
      (endpointLoop flow (ny * nx) (ny * nx + 1)
        (init_terminal_nodes flow ny nx)).getD i none = some (m : ℤ) := by
    intro i m hr
    induction hr with
    | pit i hp =>
      intro hi hnb
      have ht0i : (init_terminal_nodes flow ny nx).getD i none = some (i : ℤ) := by
        unfold init_terminal_nodes
        rw [getD_range_map _ _ _ _ hi, if_neg hnb, if_pos hp]
      exact endpointLoop_some flow (ny * nx) (ny * nx + 1) _ i _ hi ht0i
    | step i j m hf hr ih =>
      intro hi hnb
      have hjn : j < ny * nx := by
        have hsome := reaches_flow_some hr
        by_contra hcon
        push_neg at hcon
        rw [List.getD_eq_default _ _ (by omega)] at hsome
        exact hsome rfl
      have hjb : ¬ isBoundaryCell ny nx (j / nx) (j % nx) := fun hb =>
        reaches_flow_some hr (hbnd j hjn hb)
      have htj := ih hjn hjb
      cases hti : (endpointLoop flow (ny * nx) (ny * nx + 1)
          (init_terminal_nodes flow ny nx)).getD i none with
      | some v =>
        rcases hinv i hi v hti with ⟨hv2, hb⟩ | ⟨mv, hveq, hrv⟩
        · exact absurd hb hnb
        · rw [hveq]
          rw [reaches_unique hrv (Reaches.step i j m hf hr)]
      | none =>
        exfalso
        have hgetfix : (update_terminal_nodes flow (ny * nx)
            (endpointLoop flow (ny * nx) (ny * nx + 1)
              (init_terminal_nodes flow ny nx))).getD i none = none := by
          rw [hfix]
          exact hti
        rw [update_terminal_nodes_getD flow (ny * nx) _ i hi] at hgetfix
        have hp1i : (update_phase1 flow (ny * nx)
            (endpointLoop flow (ny * nx) (ny * nx + 1)
              (init_terminal_nodes flow ny nx))).getD i none =
            (if optAtZ flow (j : ℤ) = some (-1) then some (j : ℤ) else none) := by
          rw [update_phase1_getD flow (ny * nx) _ i hi, hti, hf]
        by_cases hjp : optAtZ flow (j : ℤ) = some (-1)
        · rw [hp1i, if_pos hjp] at hgetfix
          simp at hgetfix
        · rw [hp1i, if_neg hjp, hf] at hgetfix
          simp only [] at hgetfix
          have hjlab : (update_phase1 flow (ny * nx)
              (endpointLoop flow (ny * nx) (ny * nx + 1)
                (init_terminal_nodes flow ny nx))).getD j none = some (m : ℤ) :=
            update_phase1_some flow (ny * nx) _ j _ hjn htj
          have hopt : optAtZ (update_phase1 flow (ny * nx)
              (endpointLoop flow (ny * nx) (ny * nx + 1)
                (init_terminal_nodes flow ny nx))) (j : ℤ) = some (m : ℤ) := by
            unfold optAtZ
            rw [if_pos (by positivity)]
            simpa using hjlab
          rw [hopt] at hgetfix
          simp at hgetfix
  refine ⟨hfix, ?_, ?_, ?_⟩
  · intro i hi hnb hp
    rw [get_node_endpoints_getD flow ny nx i hi, if_neg hnb]
    exact hC i i (Reaches.pit i hp) hi hnb
  · intro i m hi hnb hr
    rw [get_node_endpoints_getD flow ny nx i hi, if_neg hnb]
    exact hC i m hr hi hnb
  · intro i hi hb
    rw [get_node_endpoints_getD flow ny nx i hi, if_pos hb]

def endpointWitnessFlow : List (Option ℤ) :=
  [none, none, none, none, some (-1), none, none, none, none]

theorem endpoint_labeller_spec_witness :
    endpointWitnessFlow.length = 3 * 3 ∧
    (∀ i, i < 3 * 3 → isBoundaryCell 3 3 (i / 3) (i % 3) →
      endpointWitnessFlow.getD i none = none) ∧
    (
    (update_terminal_nodes endpointWitnessFlow (3 * 3)
        (endpointLoop endpointWitnessFlow (3 * 3) (3 * 3 + 1) (init_terminal_nodes endpointWitnessFlow 3 3)) =
      endpointLoop endpointWitnessFlow (3 * 3) (3 * 3 + 1) (init_terminal_nodes endpointWitnessFlow 3 3)) ∧
    (∀ i, i < 3 * 3 → ¬ isBoundaryCell 3 3 (i / 3) (i % 3) →
      endpointWitnessFlow.getD i none = some (-1) →
      (get_node_endpoints endpointWitnessFlow 3 3).getD i none = some (i : ℤ)) ∧
    (∀ i m : ℕ, i < 3 * 3 → ¬ isBoundaryCell 3 3 (i / 3) (i % 3) →
      Reaches endpointWitnessFlow i m → (get_node_endpoints endpointWitnessFlow 3 3).getD i none = some (m : ℤ)) ∧
    (∀ i, i < 3 * 3 → isBoundaryCell 3 3 (i / 3) (i % 3) →
      (get_node_endpoints endpointWitnessFlow 3 3).getD i none = none)) :=
  ⟨by decide, by decide,
    endpoint_labeller_spec endpointWitnessFlow 3 3 (by decide) (by decide)⟩


/-! ## Local watersheds, combined minima, spill engine, depressionless DEM -/

/-- Lexicographic `≤` on integer lists (Python list comparison, used to model
`sorted(...)` of cycle lists). -/
def lexLeB : List ℤ → List ℤ → Bool
  | [], _ => true
  | _ :: _, [] => false
  | x :: xs, y :: ys => if x < y then true else if y < x then false else lexLeB xs ys

/-- `get_local_watersheds`: cells grouped by endpoint key.  `np.unique` sorts
the keys ascending; inside a group the (stable model of the) argsort order is
ascending cell index; the `None` key is deleted. -/
def get_local_watersheds (endpoints : List (Option ℤ)) (n : ℕ) : List (ℤ × List ℕ) :=
  let keys := (((List.range n).filterMap (fun i => endpoints.getD i none)).dedup).insertionSort
    (fun a b => a ≤ b)
  keys.map fun m => (m, (List.range n).filter (fun i => endpoints.getD i none = some m))

/-- The linear-index offsets of `get_neighbor_indices` (also the offsets used
by `combine_minima` through its 2-d detour, which computes the same values). -/
def get_neighbor_indices_offsets (cols : ℕ) (d4 : Bool) : List ℤ :=
  if d4 then [1, (cols : ℤ), -1, -(cols : ℤ)]
  else [-(cols : ℤ) + 1, 1, (cols : ℤ) + 1, (cols : ℤ), (cols : ℤ) - 1, -1,
        -(cols : ℤ) - 1, -(cols : ℤ)]

/-- Walk successor pointers until a repeat closes a cycle (helper for the
cycle enumeration below). -/
def cycleFrom (succ : ℤ → Option ℤ) : ℕ → ℤ → List ℤ → Option (List ℤ)
  | 0, _, _ => none
  | fuel + 1, x, path =>
    if x ∈ path then some (path.dropWhile (fun y => y ≠ x))
    else
      match succ x with
      | some y => cycleFrom succ fuel y (path ++ [x])
      | none => none

/-- Modelled from the spec and the call site: `networkx.simple_cycles` on the
watershed spill graph, in which every node has at most one outgoing edge
(one spill pair per watershed), so every simple cycle is found by following
successors; `sorted(...)` normalizes the order. -/
def simple_cycles_functional (edges : List (ℤ × ℤ)) : List (List ℤ) :=
  let succ := fun a => (edges.find? (fun e => e.1 = a)).map Prod.snd
  let starts := (edges.map Prod.fst).dedup
  ((starts.filterMap (fun s => (cycleFrom succ (edges.length + 1) s []).map
      (fun cyc => cyc.insertionSort (fun a b => a ≤ b)))).dedup).insertionSort
    (fun a b => lexLeB a b = true)

/-- `combine_minima`: connected components of the adjacency graph on minima
(`csgraph.connected_components`), multi-element components first (in scipy
label order, i.e. by smallest member), then the remaining single minima
ascending (`np.setdiff1d` sorts). -/
def combine_minima (local_minima : List ℤ) (ny nx : ℕ) (d4 : Bool) : List (List ℤ) :=
  if local_minima.length = 1 then [local_minima]
  else
    let sorted := local_minima.insertionSort (fun a b => a ≤ b)
    let comps := sorted.foldl (fun comps m =>
      let nbrs := (get_neighbor_indices_offsets nx d4).map (fun t => m + t)
      let touched := comps.filter (fun comp => comp.any (fun x => decide (x ∈ nbrs)))
      let untouched := comps.filter (fun comp => ¬ comp.any (fun x => decide (x ∈ nbrs)))
      untouched ++ [touched.flatten ++ [m]]) ([] : List (List ℤ))
    let comps := (comps.map (fun comp => comp.insertionSort (fun a b => a ≤ b))).insertionSort
      (fun a b => a.getD 0 0 ≤ b.getD 0 0)
    let multi := comps.filter (fun comp => 1 < comp.length)
    if multi.isEmpty then local_minima.map (fun m => [m])
    else
      let located := multi.flatten
      let remaining := sorted.filter (fun m => m ∉ located)
      multi ++ remaining.map (fun m => [m])

def lookupWs (lw : List (ℤ × List ℕ)) (m : ℤ) : List ℕ :=
  match lw.find? (fun p => p.1 = m) with
  | some p => p.2
  | none => []

/-- `combine_watersheds`: per combined minimum, concatenate the local
watersheds of its members. -/
def combine_watersheds (local_watersheds : List (ℤ × List ℕ))
    (combined_minima : List (List ℤ)) : List (List ℕ) :=
  combined_minima.map (fun comb => (comb.map (lookupWs local_watersheds)).flatten)

/-- `map_nodes_to_watersheds`: start from `-1` everywhere and write each
watershed's index over its cells in order (later watersheds win). -/
def map_nodes_to_watersheds (watersheds : List (List ℕ)) (rows cols : ℕ) : List ℤ :=
  (List.range (rows * cols)).map fun u =>
    watersheds.enum.foldl (fun acc p => if u ∈ p.2 then (p.1 : ℤ) else acc) (-1)

/-- Watershed index of a (possibly signed) node index under a mapping. -/
def wsOf (mapping : List ℤ) (u : ℤ) : ℤ :=
  if 0 ≤ u then mapping.getD u.toNat (-1) else -1

/-- `get_boundary_pairs_for_specific_watersheds`: for each watershed, all
`(u, v)` with `u` in the watershed, `v` one of its 4/8 arithmetic neighbors,
`v` outside the watershed, in cell-major, offset-minor order. -/
def get_boundary_pairs_for_specific_watersheds (specific : List (List ℕ)) (nx : ℕ)
    (d4 : Bool) : List (List (ℤ × ℤ)) :=
  specific.map fun watershed =>
    (watershed.map (fun u =>
      (get_neighbor_indices_offsets nx d4).filterMap (fun t =>
        if watershed.any (fun x => ((x : ℕ) : ℤ) = (u : ℤ) + t) then none
        else some ((u : ℤ), (u : ℤ) + t)))).flatten

/-- `get_possible_spill_pairs`: keep the boundary pairs whose two heights are
both `≤ M`, where `M` is the least `max` of a pair's two heights. -/
def get_possible_spill_pairs (h : Heights α) (boundary_pairs : List (List (ℤ × ℤ))) :
    List (List (ℤ × ℤ)) :=
  boundary_pairs.map fun pairs =>
    let m := qmin (pairs.map (fun p => max (hAtZ h p.1) (hAtZ h p.2)))
    pairs.filter (fun p => hAtZ h p.1 ≤ m ∧ hAtZ h p.2 ≤ m)

/-- The slope of a candidate spill pair: numerator `h[u] - h[v]`, distance
class cardinal iff `|u - v| ∈ {1, cols}` (`get_steepest_spill_pair` divides
by the hardcoded `10` resp. `sqrt 200`; the comparison is step-invariant). -/
def spillSlope (h : Heights α) (cols : ℕ) (p : ℤ × ℤ) : Slope α :=
  ⟨hAtZ h p.1 - hAtZ h p.2,
    ¬ ((p.1 - p.2).natAbs = 1 ∨ (p.1 - p.2).natAbs = cols)⟩

/-- `get_steepest_spill_pair`: per watershed the first candidate of maximal
slope (`np.argmax`); the resulting `set` is modelled as deduplication. -/
def get_steepest_spill_pair (h : Heights α) (spill_pairs : List (List (ℤ × ℤ)))
    (cols : ℕ) : List (ℤ × ℤ) :=
  (spill_pairs.map fun pairs =>
    pairs.getD (argmaxSlope (pairs.map (spillSlope h cols))) (0, 0)).dedup

/-- `merge_watersheds_flowing_into_each_other`; Python's set iteration order
over the merge pairs is modelled as sorted order (the merged contents and the
final raster do not depend on it). -/
def merge_watersheds_flowing_into_each_other (watersheds : List (List ℕ))
    (steepest : List (ℤ × ℤ)) (rows cols : ℕ) :
    List (List ℕ) × List (ℤ × ℤ) × List ℕ :=
  let mapping := map_nodes_to_watersheds watersheds rows cols
  let wsPair := fun p : ℤ × ℤ => (wsOf mapping p.1, wsOf mapping p.2)
  let temp := steepest.map wsPair
  let mutualPairs := temp.filter (fun q => (q.2, q.1) ∈ temp)
  let merge_pairs := ((mutualPairs.map (fun q => if q.1 ≤ q.2 then q else (q.2, q.1))).dedup).insertionSort
    (fun a b => (a.1 < b.1 ∨ (a.1 = b.1 ∧ a.2 ≤ b.2)))
  let merged := merge_pairs.map (fun q =>
    (watersheds.getD q.1.toNat []) ++ (watersheds.getD q.2.toNat []))
  let merged_indices := (((merge_pairs.map (fun q => q.1.toNat)) ++
    (merge_pairs.map (fun q => q.2.toNat))).dedup).insertionSort (fun a b => a ≤ b)
  let removed := steepest.filter (fun p => wsPair p ∈ mutualPairs)
  (merged, removed, merged_indices)

/-- `remove_cycles`: collapse the simple cycles of the watershed-level spill
graph (edges with both endpoints in watersheds). -/
def remove_cycles (watersheds : List (List ℕ)) (steepest : List (ℤ × ℤ))
    (ny nx : ℕ) : List (List ℕ) × List (ℤ × ℤ) × List ℕ :=
  let mapping := map_nodes_to_watersheds watersheds ny nx
  let wsPair := fun p : ℤ × ℤ => (wsOf mapping p.1, wsOf mapping p.2)
  let spill_pairs := (steepest.map wsPair).filter (fun q => q.1 ≠ -1 ∧ q.2 ≠ -1)
  let cycles := simple_cycles_functional spill_pairs
  let merged_indices := ((cycles.flatten.map Int.toNat).dedup).insertionSort (fun a b => a ≤ b)
  let merged := cycles.map (fun cyc => (cyc.map (fun el => watersheds.getD el.toNat [])).flatten)
  let removed := steepest.filter (fun p =>
    (wsPair p).1 ≠ -1 ∧ (wsPair p).2 ≠ -1 ∧ (wsPair p).1.toNat ∈ merged_indices)
  (merged, removed, merged_indices)

/-- `[watersheds[i] for i not in merged_indices]`. -/
def removeIdxs (ws : List (List ℕ)) (idxs : List ℕ) : List (List ℕ) :=
  (ws.enum.filter (fun p => p.1 ∉ idxs)).map Prod.snd

/-- The `while len(merged_watersheds) > 0` loop of
`combine_watersheds_spilling_into_each_other`: recompute spill pairs for the
watersheds formed this round, merge mutual spills, and on a quiet round break
cycles and restart if any collapsed.  The fuel `2 * |watersheds| + 2` exceeds
the possible number of rounds (each productive round shrinks the list). -/
def spillLoop (h : Heights α) (ny nx : ℕ) (d4 : Bool) :
    ℕ → List (List ℕ) → List (ℤ × ℤ) → List (List ℕ) → List (ℤ × ℤ) →
    List (List ℕ) × List (ℤ × ℤ)
  | 0, _, _, ws, steepest => (ws, steepest)
  | fuel + 1, merged, remaining, ws, steepest =>
    if merged.isEmpty then (ws, steepest)
    else
      let bps := get_boundary_pairs_for_specific_watersheds merged nx d4
      let sps := get_possible_spill_pairs h bps
      let newSteepest := ((get_steepest_spill_pair h sps nx) ++ remaining).dedup
      let m2 := merge_watersheds_flowing_into_each_other ws newSteepest ny nx
      let remaining2 := newSteepest.filter (fun p => p ∉ m2.2.1)
      let ws2 := removeIdxs ws m2.2.2 ++ m2.1
      if m2.1.isEmpty then
        let m3 := remove_cycles ws2 newSteepest ny nx
        let remaining3 := newSteepest.filter (fun p => p ∉ m3.2.1)
        let ws3 := removeIdxs ws2 m3.2.2 ++ m3.1
        spillLoop h ny nx d4 fuel m3.1 remaining3 ws3 newSteepest
      else spillLoop h ny nx d4 fuel m2.1 remaining2 ws2 newSteepest

/-- `combine_watersheds_spilling_into_each_other`: run the loop, then order
the spill pairs by the watershed index of their source node. -/
def combine_watersheds_spilling_into_each_other (watersheds : List (List ℕ))
    (h : Heights α) (ny nx : ℕ) (d4 : Bool) :
    List (List ℕ) × List (ℤ × ℤ) :=
  let ws_sp := spillLoop h ny nx d4 (2 * watersheds.length + 2) watersheds [] watersheds []
  let mapping := map_nodes_to_watersheds ws_sp.1 ny nx
  (ws_sp.1, ws_sp.2.insertionSort (fun p q => wsOf mapping p.1 ≤ wsOf mapping q.1))

/-- Python tuple comparison on `((ws_from, ws_to), spill_height)`. -/
def spillKeyLeB (a b : (ℤ × ℤ) × α) : Bool :=
  if a.1.1 < b.1.1 then true
  else if b.1.1 < a.1.1 then false
  else if a.1.2 < b.1.2 then true
  else if b.1.2 < a.1.2 then false
  else a.2 ≤ b.2

/-- `get_spill_heights`: `None` without spill pairs, else the heights
`max(h[from], h[to])` listed in sorted `((ws_from, ws_to), h)` order. -/
def get_spill_heights (watersheds : List (List ℕ)) (h : Heights α)
    (steepest : List (ℤ × ℤ)) (ny nx : ℕ) : Option (List α) :=
  if steepest.isEmpty then none
  else
    let mapping := map_nodes_to_watersheds watersheds ny nx
    let items := steepest.map (fun p =>
      ((wsOf mapping p.1, wsOf mapping p.2), max (hAtZ h p.1) (hAtZ h p.2)))
    some ((items.insertionSort (fun a b => spillKeyLeB a b = true)).map Prod.snd)

/-- `get_all_traps`: per watershed the cells at or below its spill height,
and the trap sizes. -/
def get_all_traps (watersheds : List (List ℕ)) (h : Heights α)
    (spill_heights : List α) : List (List ℕ) × List ℕ :=
  let traps := (List.range watersheds.length).map (fun i =>
    (watersheds.getD i []).filter (fun (u : ℕ) => hAtZ h (u : ℤ) ≤ spill_heights.getD i 0))
  (traps, traps.map List.length)

/-- `calculate_watersheds`: flow field, endpoints, local watersheds, combined
minima, watershed assembly and the spill fixed point. -/
def calculate_watersheds (h : Heights α) (dim_x dim_y : ℕ) (step : α) (d4 : Bool) :
    List (List ℕ) × List (ℤ × ℤ) × List (Option ℤ) :=
  let flow := get_flow_direction_indices h step dim_y dim_x d4
  let endpoints := get_node_endpoints flow dim_y dim_x
  let lw := get_local_watersheds endpoints (dim_y * dim_x)
  let local_minima := lw.map Prod.fst
  let cm := combine_minima local_minima dim_y dim_x d4
  let watersheds := combine_watersheds lw cm
  let ws_sp := combine_watersheds_spilling_into_each_other watersheds h dim_y dim_x d4
  (ws_sp.1, ws_sp.2, flow)

/-- `make_depressionless`: fill single-cell pits, compute watersheds and
spill pairs on the filled raster, then overwrite each trap with its spill
height.  (When there are no watersheds, `steepest_spill_pairs` is `None` and
the raster is returned unchanged, matching the source where the trap loop
then runs zero times.) -/
def make_depressionless (h : Heights α) (step : α) (ny nx : ℕ) (d4 : Bool) :
    Heights α :=
  let h1 := fill_single_cell_depressions h ny nx
  let flow := get_flow_direction_indices h1 step ny nx d4
  let endpoints := get_node_endpoints flow ny nx
  let lw := get_local_watersheds endpoints (ny * nx)
  let local_minima := lw.map Prod.fst
  let cm := combine_minima local_minima ny nx d4
  let watersheds := combine_watersheds lw cm
  let ws_sp := combine_watersheds_spilling_into_each_other watersheds h1 ny nx d4
  match get_spill_heights ws_sp.1 h1 ws_sp.2 ny nx with
  | none => h1
  | some sh =>
    let traps := (get_all_traps ws_sp.1 h1 sh).1
    traps.enum.foldl (fun acc p =>
      p.2.foldl (fun acc2 u => acc2.set u (sh.getD p.1 0)) acc) h1

/-! ## Monotonicity of `make_depressionless` (C7) and drainage of its
output (C2) -/

theorem hAtZ_natCast (h : Heights α) (u : ℕ) : hAtZ h (u : ℤ) = h.getD u 0 := by
  unfold hAtZ
  rw [if_pos (Int.natCast_nonneg u)]
  rfl

/-- Writing a value at least `h1`'s entry preserves pointwise domination. -/
theorem getD_set_le (l h1 : Heights α) (u : ℕ) (v : α)
    (hinv : ∀ i, h1.getD i 0 ≤ l.getD i 0) (hv : h1.getD u 0 ≤ v) :
    ∀ i, h1.getD i 0 ≤ (l.set u v).getD i 0 := by
  intro i
  by_cases hu : u < l.length
  · by_cases hiu : i = u
    · subst hiu
      calc h1.getD i 0 ≤ v := hv
        _ = (l.set i v).getD i 0 := by
          rw [List.getD_eq_getElem _ _ (by simpa using hu), List.getElem_set_self]
    · have he : (l.set u v).getD i 0 = l.getD i 0 := by
        rw [List.getD_eq_getElem?_getD, List.getD_eq_getElem?_getD,
          List.getElem?_set_ne (fun hc => hiu hc.symm)]
      rw [he]
      exact hinv i
  · rw [List.set_eq_of_length_le (by omega)]
    exact hinv i

/-- The inner trap-filling fold preserves pointwise domination when every
written value is at least the original entry. -/
theorem cell_fold_le (h1 : Heights α) (v : α) :
    ∀ (cells : List ℕ) (acc : Heights α),
      (∀ i, h1.getD i 0 ≤ acc.getD i 0) → (∀ u ∈ cells, h1.getD u 0 ≤ v) →
      ∀ i, h1.getD i 0 ≤ (cells.foldl (fun acc2 u => acc2.set u v) acc).getD i 0
  | [], _, hinv, _, i => hinv i
  | u :: t, acc, hinv, hcell, i =>
    cell_fold_le h1 v t (acc.set u v)
      (getD_set_le acc h1 u v hinv (hcell u (List.mem_cons_self u t)))
      (fun w hw => hcell w (List.mem_cons_of_mem u hw)) i

/-- The outer trap-filling fold preserves pointwise domination. -/
theorem enum_fold_le (h1 : Heights α) (sh : List α) :
    ∀ (traps : List (ℕ × List ℕ)) (acc : Heights α),
      (∀ i, h1.getD i 0 ≤ acc.getD i 0) →
      (∀ p ∈ traps, ∀ u ∈ p.2, h1.getD u 0 ≤ sh.getD p.1 0) →
      ∀ i, h1.getD i 0 ≤ (traps.foldl (fun acc2 p =>
        p.2.foldl (fun acc3 u => acc3.set u (sh.getD p.1 0)) acc2) acc).getD i 0
  | [], _, hinv, _, i => hinv i
  | p :: t, acc, hinv, htr, i =>
    enum_fold_le h1 sh t _
      (cell_fold_le h1 (sh.getD p.1 0) p.2 acc hinv (htr p (List.mem_cons_self p t)))
      (fun q hq u hu => htr q (List.mem_cons_of_mem p hq) u hu) i

/-- `fill_single_cell_depressions` never lowers a cell (helper). -/
theorem fill_getD_mono (h : Heights α) (ny nx : ℕ) (hlen : h.length = ny * nx)
    (j : ℕ) : h.getD j 0 ≤ (fill_single_cell_depressions h ny nx).getD j 0 := by
  by_cases hj : j < ny * nx
  · rw [fill_getD h ny nx j hj]
    split_ifs with hcond
    · obtain ⟨hint, hmax⟩ := hcond
      rw [fill_cond_iff] at hmax
      rw [← hAt_eq_getD h nx j]
      exact le_of_lt hmax
    · exact le_refl _
  · push_neg at hj
    rw [List.getD_eq_default h _ (by omega),
      List.getD_eq_default _ _ (by simp [fill_single_cell_depressions]; omega)]

/-- Every cell of a trap produced by `get_all_traps` sits at or below the
trap's spill height (helper). -/
theorem get_all_traps_le (W : List (List ℕ)) (h1 : Heights α) (sh : List α) :
    ∀ p ∈ (get_all_traps W h1 sh).1.enum, ∀ u ∈ p.2,
      h1.getD u 0 ≤ sh.getD p.1 0 := by
  rintro ⟨idx, trap⟩ hp u hu
  rw [List.mk_mem_enum_iff_getElem?] at hp
  simp only [get_all_traps, List.getElem?_map] at hp
  by_cases hidx : idx < W.length
  · rw [List.getElem?_range hidx] at hp
    simp only [Option.map_some'] at hp
    have htrap := Option.some.inj hp
    have hu2 : u ∈ trap := hu
    rw [← htrap] at hu2
    obtain ⟨-, hdec⟩ := List.mem_filter.mp hu2
    have := of_decide_eq_true hdec
    rwa [hAtZ_natCast] at this
  · rw [List.getElem?_eq_none (by simpa using hidx)] at hp
    exact Option.noConfusion hp

set_option maxRecDepth 100000

/-- The 5×5 raster exhibiting non-idempotence of `make_depressionless`. -/
def ceH : Heights ℤ :=
  [1, 1, 2, 0, 2, 1, 3, 2, 0, 1, 3, 0, 2, 1, 0, 2, 3, 0, 2, 0, 1, 1, 1, 2, 1]

/-- C7: counterexample — `make_depressionless` is not idempotent.  On this
5×5 D4 raster the first application fills the traps of the two watersheds;
doing so creates a fresh single-cell depression at cell 17, which only the
second application raises (from 0 to 1), so the two results differ. -/
theorem make_depressionless_not_idempotent :
    make_depressionless (make_depressionless ceH 10 5 5 true) 10 5 5 true ≠
      make_depressionless ceH 10 5 5 true := by decide

/-- C7 (amended): `make_depressionless` never lowers any cell — single-cell
pits rise to the minimum neighbor height and each trap cell rises to its
watershed's spill height, which by the trap filter is at or above the cell's
own height; the operation is pointwise non-decreasing (though not
idempotent). -/
theorem make_depressionless_monotone (h : Heights α) (step : α) (ny nx : ℕ)
    (d4 : Bool) (hlen : h.length = ny * nx) (i : ℕ) :
    h.getD i 0 ≤ (make_depressionless h step ny nx d4).getD i 0 := by
  have hfill := fill_getD_mono h ny nx hlen
  unfold make_depressionless
  simp only []
  split
  · exact hfill i
  · exact le_trans (hfill i)
      (enum_fold_le (fill_single_cell_depressions h ny nx) _ _ _
        (fun _ => le_refl _) (get_all_traps_le _ _ _) i)

theorem make_depressionless_monotone_witness :
    (ceH.length = 5 * 5) ∧
      ceH.getD 11 0 ≤ (make_depressionless ceH 10 5 5 true).getD 11 0 :=
  ⟨by decide, make_depressionless_monotone ceH 10 5 5 true (by decide) 11⟩

/-- C2: on the raster returned by `make_depressionless`, a recomputed flow
field only points downhill: whenever the flow value at a cell `i` is an
actual value `j`, either `j` is the pit sentinel `-1` or `j` is a valid
target index whose height does not exceed the height at `i` (it is in fact
strictly lower, since the selected slope is positive). -/
theorem depressionless_flow_monotone (h : Heights α) (step : α) (ny nx : ℕ)
    (d4 : Bool) (i : ℕ) (j : ℤ)
    (hj : (get_flow_direction_indices (make_depressionless h step ny nx d4)
        step ny nx d4).getD i none = some j) :
    j = -1 ∨ (0 ≤ j ∧
      hAtZ (make_depressionless h step ny nx d4) j ≤
        (make_depressionless h step ny nx d4).getD i 0) := by
  by_cases hne : j = -1
  · exact Or.inl hne
  · obtain ⟨h0, hlt⟩ :=
      flow_target_lower (make_depressionless h step ny nx d4) step ny nx d4 i j hj hne
    exact Or.inr ⟨h0, le_of_lt hlt⟩

theorem depressionless_flow_monotone_witness :
    ((get_flow_direction_indices (make_depressionless ceH 10 5 5 true)
        (10 : ℤ) 5 5 true).getD 12 none = some 17) ∧
      ((17 : ℤ) = -1 ∨ (0 ≤ (17 : ℤ) ∧
        hAtZ (make_depressionless ceH 10 5 5 true) 17 ≤
          (make_depressionless ceH 10 5 5 true).getD 12 0)) :=
  ⟨by decide, depressionless_flow_monotone ceH 10 5 5 true 12 17 (by decide)⟩

/-! ## Degenerate grids (C9): no validation, the pipeline silently returns
the input raster when there is no interior -/

theorem not_isInterior_small (ny nx r c : ℕ) (hsmall : nx < 3 ∨ ny < 3) :
    ¬ isInterior ny nx r c := by
  rintro ⟨h1, h2, h3, h4⟩
  omega

theorem boundary_small (ny nx r c : ℕ) (hc : c < nx) (hr : r < ny)
    (hsmall : nx < 3 ∨ ny < 3) : isBoundaryCell ny nx r c := by
  unfold isBoundaryCell
  omega

/-- Without an interior the fill pass is the identity. -/
theorem fill_small_eq (h : Heights α) (ny nx : ℕ) (hlen : h.length = ny * nx)
    (hsmall : nx < 3 ∨ ny < 3) : fill_single_cell_depressions h ny nx = h := by
  apply List.ext_getElem
  · simp [fill_single_cell_depressions, hlen]
  · intro i h1 h2
    have hi : i < ny * nx := by simpa [fill_single_cell_depressions] using h1
    have hD := fill_getD h ny nx i hi
    rw [if_neg (fun hcond => not_isInterior_small ny nx _ _ hsmall hcond.1)] at hD
    calc (fill_single_cell_depressions h ny nx)[i]
        = (fill_single_cell_depressions h ny nx).getD i 0 :=
          (List.getD_eq_getElem _ _ h1).symm
      _ = h.getD i 0 := hD
      _ = h[i] := List.getD_eq_getElem _ _ h2

/-- Without an interior every flow value is `None`. -/
theorem flow_small_none (h : Heights α) (step : α) (ny nx : ℕ) (d4 : Bool)
    (hsmall : nx < 3 ∨ ny < 3) (i : ℕ) :
    (get_flow_direction_indices h step ny nx d4).getD i none = none := by
  by_cases hi : i < ny * nx
  · have hnx : 0 < nx := by
      rcases Nat.eq_zero_or_pos nx with h0 | h0
      · subst h0; omega
      · exact h0
    have hieq : i = (i / nx) * nx + (i % nx) := by
      rw [Nat.mul_comm]
      exact (Nat.div_add_mod i nx).symm
    rw [hieq] at hi ⊢
    rw [get_flow_direction_indices_getD h step ny nx d4 _ hi,
      remove_out_of_boundary_flow_getD _ ny nx d4 _ _ hi (Nat.mod_lt i hnx),
      get_flow_directions_getD h step ny nx d4 _ hi]
    rw [(linear_index_eq nx (i / nx) (i % nx) (Nat.mod_lt i hnx)).1,
      (linear_index_eq nx (i / nx) (i % nx) (Nat.mod_lt i hnx)).2,
      if_neg (not_isInterior_small ny nx _ _ hsmall)]
  · push_neg at hi
    rw [get_flow_direction_indices, getD_range_map_ge _ _ _ _ hi]

/-- Without an interior every endpoint is `None` (all cells sit on the
boundary ring, which `get_node_endpoints` resets to `None`). -/
theorem endpoints_small_none (flow : List (Option ℤ)) (ny nx : ℕ)
    (hsmall : nx < 3 ∨ ny < 3) (i : ℕ) :
    (get_node_endpoints flow ny nx).getD i none = none := by
  by_cases hi : i < ny * nx
  · have hnx : 0 < nx := by
      rcases Nat.eq_zero_or_pos nx with h0 | h0
      · subst h0; omega
      · exact h0
    rw [get_node_endpoints, getD_range_map _ _ _ _ hi,
      if_pos (boundary_small ny nx _ _ (Nat.mod_lt i hnx)
        (Nat.div_lt_of_lt_mul (by rwa [Nat.mul_comm] at hi)) hsmall)]
  · push_neg at hi
    rw [get_node_endpoints, getD_range_map_ge _ _ _ _ hi]

/-- With all endpoints `None` there are no local watersheds. -/
theorem get_local_watersheds_none (endpoints : List (Option ℤ)) (n : ℕ)
    (hnone : ∀ i, i < n → endpoints.getD i none = none) :
    get_local_watersheds endpoints n = [] := by
  unfold get_local_watersheds
  have hfm : (List.range n).filterMap (fun i => endpoints.getD i none) = [] := by
    rw [List.filterMap_eq_nil_iff]
    intro a ha
    exact hnone a (List.mem_range.mp ha)
  rw [hfm]
  rfl

/-- C9 (amended): the source performs no input validation; on a raster with
no interior (`nx < 3` or `ny < 3`) every cell lies on the boundary ring, the
flow and endpoint fields are all `None`, no watershed exists, and
`make_depressionless` silently returns the input raster unchanged instead of
raising a classified error. -/
theorem make_depressionless_small (h : Heights α) (step : α) (ny nx : ℕ)
    (d4 : Bool) (hlen : h.length = ny * nx) (hsmall : nx < 3 ∨ ny < 3) :
    make_depressionless h step ny nx d4 = h := by
  have hfill := fill_small_eq h ny nx hlen hsmall
  have hlw : get_local_watersheds (get_node_endpoints
      (get_flow_direction_indices (fill_single_cell_depressions h ny nx) step ny nx d4)
      ny nx) (ny * nx) = [] :=
    get_local_watersheds_none _ _ (fun i _ => endpoints_small_none _ ny nx hsmall i)
  unfold make_depressionless
  simp only []
  rw [hlw]
  exact hfill

theorem make_depressionless_small_witness :
    (([0, 1, 2, 3] : Heights ℤ).length = 2 * 2) ∧ ((2 : ℕ) < 3 ∨ (2 : ℕ) < 3) ∧
      make_depressionless ([0, 1, 2, 3] : Heights ℤ) 10 2 2 false = [0, 1, 2, 3] :=
  ⟨by decide, Or.inl (by decide),
    make_depressionless_small ([0, 1, 2, 3] : Heights ℤ) 10 2 2 false
      (by decide) (Or.inl (by decide))⟩

/-- C9: counterexample — no classified error is raised on a raster without
an interior: on this 2×2 input `make_depressionless` silently computes and
returns the raster unchanged (in the source, no public operation checks
`nx`, `ny`, or finiteness before computing). -/
theorem no_small_grid_validation :
    make_depressionless ([5, 1, 2, 3] : Heights ℤ) 10 2 2 false =
      [5, 1, 2, 3] := by decide

/-! ## Spill pair selection (C1) -/

theorem get_possible_spill_pairs_singleton (h : Heights α) (bps : List (ℤ × ℤ)) :
    get_possible_spill_pairs h [bps] =
      [bps.filter (fun p =>
        hAtZ h p.1 ≤ qmin (bps.map (fun q => max (hAtZ h q.1) (hAtZ h q.2))) ∧
        hAtZ h p.2 ≤ qmin (bps.map (fun q => max (hAtZ h q.1) (hAtZ h q.2))))] := rfl

/-- C1: for a watershed with a non-empty list of boundary pairs, with `M` the
minimum over the pairs of `max (h u) (h v)`: the candidate list consists of
exactly the boundary pairs with both heights at most `M`; it is non-empty;
and the spill engine produces exactly one spill pair for the watershed,
namely the first candidate maximizing the slope `(h u - h v) / distance`,
simultaneously for every step size `step > 0` (the hardcoded divisors `10`
and `sqrt 200` of the source select the same argmax for every step, the
comparison being scale-invariant). -/
theorem steepest_spill_pair_spec (h : Heights ℚ) (cols : ℕ) (bps : List (ℤ × ℤ))
    (hne : bps ≠ []) (M : ℚ) (candidates : List (ℤ × ℤ))
    (hM : M = qmin (bps.map (fun q => max (hAtZ h q.1) (hAtZ h q.2))))
    (hcand : candidates = bps.filter (fun p => hAtZ h p.1 ≤ M ∧ hAtZ h p.2 ≤ M)) :
    (∀ p, p ∈ candidates ↔ p ∈ bps ∧ hAtZ h p.1 ≤ M ∧ hAtZ h p.2 ≤ M) ∧
    get_possible_spill_pairs h [bps] = [candidates] ∧
    candidates ≠ [] ∧
    ∃ p, get_steepest_spill_pair h (get_possible_spill_pairs h [bps]) cols = [p] ∧
      ∃ k, ∃ hk : k < candidates.length, p = candidates.get ⟨k, hk⟩ ∧
        ∀ step : ℝ, 0 < step →
          (∀ j, ∀ hj : j < candidates.length,
            slopeVal step (spillSlope h cols (candidates.get ⟨j, hj⟩)) ≤
              slopeVal step (spillSlope h cols p)) ∧
          (∀ j, ∀ hj : j < candidates.length, j < k →
            slopeVal step (spillSlope h cols (candidates.get ⟨j, hj⟩)) <
              slopeVal step (spillSlope h cols p)) := by
  subst hM
  subst hcand
  set M := qmin (bps.map (fun q => max (hAtZ h q.1) (hAtZ h q.2))) with hMdef
  set candidates := bps.filter (fun p => hAtZ h p.1 ≤ M ∧ hAtZ h p.2 ≤ M) with hcdef
  have hmemiff : ∀ p, p ∈ candidates ↔ p ∈ bps ∧ hAtZ h p.1 ≤ M ∧ hAtZ h p.2 ≤ M := by
    intro p
    rw [hcdef, List.mem_filter]
    simp only [decide_eq_true_eq]
  -- the pair attaining the minimum is a candidate, so the list is non-empty
  have hMmem : M ∈ bps.map (fun q => max (hAtZ h q.1) (hAtZ h q.2)) := by
    rw [hMdef]
    exact qmin_mem (by simpa using hne)
  obtain ⟨p0, hp0, hp0M⟩ := List.mem_map.mp hMmem
  have hp0cand : p0 ∈ candidates := (hmemiff p0).mpr
    ⟨hp0, by rw [← hp0M]; exact le_max_left _ _, by rw [← hp0M]; exact le_max_right _ _⟩
  have hcne : candidates ≠ [] := List.ne_nil_of_mem hp0cand
  refine ⟨hmemiff, get_possible_spill_pairs_singleton h bps, hcne, ?_⟩
  have hsne : candidates.map (spillSlope h cols) ≠ [] := by
    simpa using hcne
  obtain ⟨hk, hmax, hfirst⟩ := argmaxSlope_spec (candidates.map (spillSlope h cols)) hsne
  have hklen : argmaxSlope (candidates.map (spillSlope h cols)) < candidates.length := by
    simpa using hk
  refine ⟨candidates.get ⟨argmaxSlope (candidates.map (spillSlope h cols)), hklen⟩, ?_,
    argmaxSlope (candidates.map (spillSlope h cols)), hklen, rfl, ?_⟩
  · rw [get_possible_spill_pairs_singleton h bps, ← hcdef]
    show ([candidates.getD (argmaxSlope (candidates.map (spillSlope h cols))) (0, 0)]).dedup =
      [candidates.get ⟨argmaxSlope (candidates.map (spillSlope h cols)), hklen⟩]
    rw [List.getD_eq_getElem _ _ hklen]
    rfl
  · intro step hstep
    constructor
    · intro j hj
      have hj2 : j < (candidates.map (spillSlope h cols)).length := by simpa using hj
      have := hmax j hj2
      rw [slopeVal_le_iff_one hstep]
      simpa using this
    · intro j hj hjk
      have hj2 : j < (candidates.map (spillSlope h cols)).length := by simpa using hj
      have := hfirst j hj2 hjk
      rw [slopeVal_lt_iff_one hstep]
      simpa using this

def spillWitnessH : Heights ℚ := [0, 1, 2, 3, 4, 5, 6, 7, 8]

def spillWitnessBps : List (ℤ × ℤ) := [(4, 1), (4, 3), (4, 5), (4, 7)]

theorem steepest_spill_pair_spec_witness :
    (spillWitnessBps ≠ []) ∧
    ((4 : ℚ) = qmin (spillWitnessBps.map
      (fun q => max (hAtZ spillWitnessH q.1) (hAtZ spillWitnessH q.2)))) ∧
    ([((4 : ℤ), (1 : ℤ)), (4, 3)] = spillWitnessBps.filter
      (fun p => hAtZ spillWitnessH p.1 ≤ 4 ∧ hAtZ spillWitnessH p.2 ≤ 4)) ∧
    ((∀ p, p ∈ [((4 : ℤ), (1 : ℤ)), (4, 3)] ↔ p ∈ spillWitnessBps ∧
        hAtZ spillWitnessH p.1 ≤ 4 ∧ hAtZ spillWitnessH p.2 ≤ 4) ∧
      get_possible_spill_pairs spillWitnessH [spillWitnessBps] =
        [[((4 : ℤ), (1 : ℤ)), (4, 3)]] ∧
      ([((4 : ℤ), (1 : ℤ)), (4, 3)] : List (ℤ × ℤ)) ≠ [] ∧
      ∃ p, get_steepest_spill_pair spillWitnessH
          (get_possible_spill_pairs spillWitnessH [spillWitnessBps]) 3 = [p] ∧
        ∃ k, ∃ hk : k < ([((4 : ℤ), (1 : ℤ)), (4, 3)] : List (ℤ × ℤ)).length,
          p = ([((4 : ℤ), (1 : ℤ)), (4, 3)] : List (ℤ × ℤ)).get ⟨k, hk⟩ ∧
          ∀ step : ℝ, 0 < step →
            (∀ j, ∀ hj : j < ([((4 : ℤ), (1 : ℤ)), (4, 3)] : List (ℤ × ℤ)).length,
              slopeVal step (spillSlope spillWitnessH 3
                  (([((4 : ℤ), (1 : ℤ)), (4, 3)] : List (ℤ × ℤ)).get ⟨j, hj⟩)) ≤
                slopeVal step (spillSlope spillWitnessH 3 p)) ∧
            (∀ j, ∀ hj : j < ([((4 : ℤ), (1 : ℤ)), (4, 3)] : List (ℤ × ℤ)).length, j < k →
              slopeVal step (spillSlope spillWitnessH 3
                  (([((4 : ℤ), (1 : ℤ)), (4, 3)] : List (ℤ × ℤ)).get ⟨j, hj⟩)) <
                slopeVal step (spillSlope spillWitnessH 3 p))) :=
  ⟨by decide, by decide, by decide,
    steepest_spill_pair_spec spillWitnessH 3 spillWitnessBps (by decide) 4
      [((4 : ℤ), (1 : ℤ)), (4, 3)] (by decide) (by decide)⟩

/-! ## Trap resolver (C3) -/

/-- The node-to-watershed fold returns the unique index whose watershed
contains the node (helper). -/
theorem mem_fold_eq (u : ℕ) : ∀ (L : List (ℕ × List ℕ)) (acc : ℤ) (k : ℤ),
    (∀ p ∈ L, u ∈ p.2 → (p.1 : ℤ) = k) → ((∃ p ∈ L, u ∈ p.2) ∨ acc = k) →
    L.foldl (fun a p => if u ∈ p.2 then (p.1 : ℤ) else a) acc = k := by
  intro L
  induction L with
  | nil =>
    intro acc k _ h2
    rcases h2 with ⟨p, hp, _⟩ | h2
    · simp at hp
    · simpa using h2
  | cons q t ih =>
    intro acc k h1 h2
    by_cases hq : u ∈ q.2
    · simp only [List.foldl_cons, if_pos hq]
      apply ih
      · intro p hp hup
        exact h1 p (List.mem_cons_of_mem q hp) hup
      · exact Or.inr (h1 q (List.mem_cons_self q t) hq)
    · simp only [List.foldl_cons, if_neg hq]
      apply ih
      · intro p hp hup
        exact h1 p (List.mem_cons_of_mem q hp) hup
      · rcases h2 with ⟨p, hp, hup⟩ | h2
        · rcases List.mem_cons.mp hp with rfl | hp
          · exact absurd hup hq
          · exact Or.inl ⟨p, hp, hup⟩
        · exact Or.inr h2

/-- With pairwise-disjoint watersheds, the node-to-watershed mapping sends a
member of watershed `k` to `k` (helper). -/
theorem wsOf_eq_of_mem (W : List (List ℕ)) (ny nx : ℕ) (u k : ℕ)
    (hu : u < ny * nx) (hk : k < W.length) (humem : u ∈ W.getD k [])
    (hdisj : ∀ i j, i < W.length → j < W.length → i ≠ j →
      ∀ v, v ∈ W.getD i [] → v ∉ W.getD j []) :
    wsOf (map_nodes_to_watersheds W ny nx) (u : ℤ) = (k : ℤ) := by
  unfold wsOf
  rw [if_pos (Int.natCast_nonneg u)]
  have htoNat : ((u : ℤ)).toNat = u := rfl
  rw [htoNat, map_nodes_to_watersheds, getD_range_map _ _ _ _ hu]
  apply mem_fold_eq
  · rintro ⟨idx, w⟩ hp hup
    rw [List.mk_mem_enum_iff_getElem?] at hp
    have hidx : idx < W.length := by
      by_contra hc
      rw [List.getElem?_eq_none (by omega)] at hp
      exact Option.noConfusion hp
    have hw : w = W.getD idx [] := by
      have h2 := hp
      rw [List.getElem?_eq_getElem hidx] at h2
      rw [List.getD_eq_getElem _ _ hidx]
      exact (Option.some.inj h2).symm
    by_cases hik : idx = k
    · exact congrArg _ hik
    · exact absurd humem (hdisj idx k hidx hk hik u (hw ▸ hup))
  · left
    refine ⟨(k, W.getD k []), ?_, humem⟩
    rw [List.mk_mem_enum_iff_getElem?, List.getElem?_eq_getElem hk,
      List.getD_eq_getElem _ _ hk]

/-- The `((ws_from, ws_to), max height)` items built by `get_spill_heights`
before sorting. -/
def spillItems (W : List (List ℕ)) (h : Heights α) (S : List (ℤ × ℤ))
    (ny nx : ℕ) : List ((ℤ × ℤ) × α) :=
  S.map (fun p => ((wsOf (map_nodes_to_watersheds W ny nx) p.1,
    wsOf (map_nodes_to_watersheds W ny nx) p.2),
    max (hAtZ h p.1) (hAtZ h p.2)))

theorem spillItems_getD (W : List (List ℕ)) (h : Heights α) (S : List (ℤ × ℤ))
    (ny nx : ℕ) (k : ℕ) (hk : k < S.length) :
    (spillItems W h S ny nx).getD k (((0 : ℤ), (0 : ℤ)), (0 : α)) =
      ((wsOf (map_nodes_to_watersheds W ny nx) (S.get ⟨k, hk⟩).1,
        wsOf (map_nodes_to_watersheds W ny nx) (S.get ⟨k, hk⟩).2),
        max (hAtZ h (S.get ⟨k, hk⟩).1) (hAtZ h (S.get ⟨k, hk⟩).2)) := by
  unfold spillItems
  rw [List.getD_eq_getElem?_getD, List.getElem?_map, List.getElem?_eq_getElem hk]
  simp only [Option.map_some', Option.getD_some, List.get_eq_getElem]

theorem spillItems_length (W : List (List ℕ)) (h : Heights α) (S : List (ℤ × ℤ))
    (ny nx : ℕ) : (spillItems W h S ny nx).length = S.length := by
  unfold spillItems
  exact List.length_map _ _

/-- `get_spill_heights` on an already sorted item list just projects the
heights (helper). -/
theorem get_spill_heights_eq (W : List (List ℕ)) (h : Heights α)
    (S : List (ℤ × ℤ)) (ny nx : ℕ) (hSne : S ≠ [])
    (hsorted : (spillItems W h S ny nx).Sorted (fun a b => spillKeyLeB a b = true)) :
    get_spill_heights W h S ny nx =
      some ((spillItems W h S ny nx).map Prod.snd) := by
  have hs2 := hsorted
  unfold spillItems at hs2 ⊢
  unfold get_spill_heights
  rw [if_neg (by simpa [List.isEmpty_iff] using hSne)]
  simp only []
  rw [List.Sorted.insertionSort_eq hs2]

set_option maxHeartbeats 1000000

/-- C3: given the final watershed list (pairwise disjoint) and exactly one
spill pair per watershed whose source cell lies in that watershed, the trap
resolver returns, for every watershed `k`, the spill height
`max (h from) (h to)` of its pair, the trap consisting of exactly the
watershed cells at or below that spill height (as an in-order sublist), and
every trap is non-empty — in particular the `from` cell belongs to it. -/
theorem trap_resolver_spec (h : Heights ℚ) (W : List (List ℕ)) (S : List (ℤ × ℤ))
    (ny nx : ℕ) (hlen : S.length = W.length) (hSne : S ≠ [])
    (hdisj : ∀ i j, i < W.length → j < W.length → i ≠ j →
      ∀ v, v ∈ W.getD i [] → v ∉ W.getD j [])
    (hmem : ∀ k, ∀ hk : k < S.length, ∃ u : ℕ, u < ny * nx ∧
      (S.get ⟨k, hk⟩).1 = (u : ℤ) ∧ u ∈ W.getD k []) :
    ∃ sh, get_spill_heights W h S ny nx = some sh ∧
      ∀ k, ∀ hk : k < S.length,
        sh.getD k 0 = max (hAtZ h (S.get ⟨k, hk⟩).1) (hAtZ h (S.get ⟨k, hk⟩).2) ∧
        (get_all_traps W h sh).1.getD k [] =
          (W.getD k []).filter
            (fun (u : ℕ) => hAtZ h (u : ℤ) ≤ sh.getD k 0) ∧
        (get_all_traps W h sh).1.getD k [] ≠ [] ∧
        (∀ u : ℕ, (S.get ⟨k, hk⟩).1 = (u : ℤ) →
          u ∈ (get_all_traps W h sh).1.getD k []) := by
  have hkey : ∀ k, ∀ hk : k < S.length,
      wsOf (map_nodes_to_watersheds W ny nx) (S.get ⟨k, hk⟩).1 = (k : ℤ) := by
    intro k hk
    obtain ⟨u, hu, hueq, humem⟩ := hmem k hk
    rw [hueq]
    exact wsOf_eq_of_mem W ny nx u k hu (by omega) humem hdisj
  have hitem : ∀ k, ∀ hk : k < S.length,
      (spillItems W h S ny nx).getD k (((0 : ℤ), (0 : ℤ)), (0 : ℚ)) =
        (((k : ℤ), wsOf (map_nodes_to_watersheds W ny nx) (S.get ⟨k, hk⟩).2),
          max (hAtZ h (S.get ⟨k, hk⟩).1) (hAtZ h (S.get ⟨k, hk⟩).2)) := by
    intro k hk
    rw [spillItems_getD W h S ny nx k hk, hkey k hk]
  have hsorted : (spillItems W h S ny nx).Sorted
      (fun a b => spillKeyLeB a b = true) := by
    refine List.pairwise_iff_get.mpr ?_
    intro i j hij
    have hilen := spillItems_length W h S ny nx
    have hi : (i : ℕ) < S.length := by omega
    have hj : (j : ℕ) < S.length := by omega
    have hgi : (spillItems W h S ny nx).get i =
        (spillItems W h S ny nx).getD (i : ℕ) (((0 : ℤ), (0 : ℤ)), (0 : ℚ)) := by
      rw [List.get_eq_getElem, List.getD_eq_getElem _ _ i.isLt]
    have hgj : (spillItems W h S ny nx).get j =
        (spillItems W h S ny nx).getD (j : ℕ) (((0 : ℤ), (0 : ℤ)), (0 : ℚ)) := by
      rw [List.get_eq_getElem, List.getD_eq_getElem _ _ j.isLt]
    rw [hgi, hgj, hitem (i : ℕ) hi, hitem (j : ℕ) hj]
    have hlt : (((i : ℕ) : ℤ)) < (((j : ℕ) : ℤ)) := by exact_mod_cast hij
    simp [spillKeyLeB, hlt]
  have hspill := get_spill_heights_eq W h S ny nx hSne hsorted
  refine ⟨(spillItems W h S ny nx).map Prod.snd, hspill, ?_⟩
  intro k hk
  have hkW : k < W.length := by omega
  have hklt : k < (spillItems W h S ny nx).length := by
    rw [spillItems_length]
    exact hk
  have hsh : ((spillItems W h S ny nx).map Prod.snd).getD k 0 =
      max (hAtZ h (S.get ⟨k, hk⟩).1) (hAtZ h (S.get ⟨k, hk⟩).2) := by
    rw [List.getD_eq_getElem?_getD, List.getElem?_map,
      List.getElem?_eq_getElem hklt]
    simp only [Option.map_some', Option.getD_some]
    have h3 := hitem k hk
    rw [List.getD_eq_getElem _ _ hklt] at h3
    rw [h3]
  have htrap : (get_all_traps W h ((spillItems W h S ny nx).map Prod.snd)).1.getD k [] =
      (W.getD k []).filter
        (fun (u : ℕ) => hAtZ h (u : ℤ) ≤
          ((spillItems W h S ny nx).map Prod.snd).getD k 0) := by
    simp only [get_all_traps]
    rw [getD_range_map _ _ _ _ hkW]
  obtain ⟨u, hu, hueq, humem⟩ := hmem k hk
  have hufilter : u ∈
      (get_all_traps W h ((spillItems W h S ny nx).map Prod.snd)).1.getD k [] := by
    rw [htrap]
    refine List.mem_filter.mpr ⟨humem, ?_⟩
    rw [decide_eq_true_eq, ← hueq, hsh]
    exact le_max_left _ _
  refine ⟨hsh, htrap, List.ne_nil_of_mem hufilter, ?_⟩
  intro v hveq
  have hvu : v = u := by
    rw [hueq] at hveq
    exact_mod_cast hveq.symm
  rw [hvu]
  exact hufilter

def trapWitnessH : Heights ℚ := [0, 5, 3, 1, 7, 2]

def trapWitnessW : List (List ℕ) := [[1, 2], [4]]

def trapWitnessS : List (ℤ × ℤ) := [(1, 3), (4, 3)]

theorem trap_resolver_spec_witness :
    (trapWitnessS.length = trapWitnessW.length) ∧ (trapWitnessS ≠ []) ∧
    (∃ sh, get_spill_heights trapWitnessW trapWitnessH trapWitnessS 1 6 = some sh ∧
      ∀ k, ∀ hk : k < trapWitnessS.length,
        sh.getD k 0 = max (hAtZ trapWitnessH (trapWitnessS.get ⟨k, hk⟩).1)
          (hAtZ trapWitnessH (trapWitnessS.get ⟨k, hk⟩).2) ∧
        (get_all_traps trapWitnessW trapWitnessH sh).1.getD k [] =
          (trapWitnessW.getD k []).filter
            (fun (u : ℕ) => hAtZ trapWitnessH (u : ℤ) ≤ sh.getD k 0) ∧
        (get_all_traps trapWitnessW trapWitnessH sh).1.getD k [] ≠ [] ∧
        (∀ u : ℕ, (trapWitnessS.get ⟨k, hk⟩).1 = (u : ℤ) →
          u ∈ (get_all_traps trapWitnessW trapWitnessH sh).1.getD k [])) :=
  ⟨by decide, by decide,
    trap_resolver_spec trapWitnessH trapWitnessW trapWitnessS 1 6 (by decide)
      (by decide)
      (by
        intro i j hi hj hij v hv
        have hi2 : i < 2 := by simpa [trapWitnessW] using hi
        have hj2 : j < 2 := by simpa [trapWitnessW] using hj
        interval_cases i <;> interval_cases j <;>
          simp_all [trapWitnessW] <;> omega)
      (by
        intro k hk
        have hk2 : k < 2 := hk
        interval_cases k
        · exact ⟨1, by decide, rfl, by decide⟩
        · exact ⟨4, by decide, rfl, by decide⟩)⟩

/-! ## Accumulation graph (C4): super-node injection, inflow rerouting and
boundary-edge removal -/

/-- Per-index row of the vectorized `get_neighbor_indices` (the arithmetic
neighbor indices, no grid clipping). -/
def get_neighbor_indices (u : ℕ) (cols : ℕ) (d4 : Bool) : List ℤ :=
  if d4 then [(u : ℤ) + 1, (u : ℤ) + cols, (u : ℤ) - 1, (u : ℤ) - cols]
  else [(u : ℤ) - cols + 1, (u : ℤ) + 1, (u : ℤ) + cols + 1, (u : ℤ) + cols,
        (u : ℤ) + cols - 1, (u : ℤ) - 1, (u : ℤ) - cols - 1, (u : ℤ) - cols]

/-- `get_traps_boundaries`: the cells of each trap having some D8 neighbor
outside the trap.  (The source calls `util.get_neighbor_indices(indices, nx)`
without the required `d4` argument — in Python that call raises a
`TypeError`; the D8 neighborhood modelled here is the one the surrounding
code intends.) -/
def get_traps_boundaries (traps : List (List ℕ)) (nx ny : ℕ) : List (List ℕ) :=
  traps.map fun trap =>
    trap.filter (fun u =>
      ¬ ((get_neighbor_indices u nx false).all
        (fun v => trap.any (fun w => ((w : ℕ) : ℤ) = v))))

/-- `get_domain_boundary_indices` (cols ≥ 1 and rows ≥ 1, as in every use:
the four `arange` rims, concatenated and sorted). -/
def get_domain_boundary_indices (cols rows : ℕ) : List ℕ :=
  ((List.range cols) ++
    ((List.range cols).map (fun c => cols * rows - cols + c)) ++
    ((List.range (rows - 2)).map (fun i => cols + i * cols)) ++
    ((List.range (rows - 2)).map (fun i => 2 * cols - 1 + i * cols))).insertionSort
    (fun a b => a ≤ b)

/-- `make_sparse_node_conn_matrix` as an entry function: cell `a` has the
single out-edge to its flow target when that target is a positive index
(`flow_to > 0` drops `-1` pits and `None` boundary cells). -/
def make_sparse_node_conn_matrix (flow : List (Option ℤ)) (rows cols : ℕ) :
    ℕ → ℕ → ℤ :=
  fun a b =>
    if a < rows * cols then
      match flow.getD a none with
      | some v => if 0 < v ∧ b = v.toNat then 1 else 0
      | none => 0
    else 0

/-- `expand_conn_mat`: the appended super-node rows and columns are all
zero, so the entry function is unchanged (the original function already
returns `0` beyond the original shape). -/
def expand_conn_mat (conn : ℕ → ℕ → ℤ) (nr_of_traps : ℕ) : ℕ → ℕ → ℤ :=
  fun a b => conn a b

/-- `conn_mat[:, tb].nonzero()` in row-major order: the pairs
`(row, position in tb)` of the nonzero entries of the trap-boundary
columns. -/
def trap_boundary_pairs (conn1 : ℕ → ℕ → ℤ) (R : ℕ) (tb : List ℕ) :
    List (ℕ × ℕ) :=
  ((List.range R).map (fun a =>
    tb.enum.filterMap (fun p =>
      if conn1 a p.2 ≠ 0 then some (a, p.1) else none))).flatten

/-- `reroute_trap_connections`: (1) super-node `k` gains the edge to the
`to` cell of spill pair `k`; (2) each nonzero entry of a trap-boundary
column is copied onto a super-node column, the super-node indices being
produced by repeating `r - len(traps) + i` according to per-trap counts of
nonzero columns and zipped positionally against the row-major nonzero rows;
(3) the original edges into the trap-boundary cells are removed; (4) every
remaining edge into a domain-boundary cell is removed. -/
def reroute_trap_connections (conn : ℕ → ℕ → ℤ) (rows cols : ℕ)
    (traps : List (List ℕ)) (steepest : List (ℤ × ℤ)) : ℕ → ℕ → ℤ :=
  let n := rows * cols
  let T := traps.length
  let R := n + T
  let conn1 : ℕ → ℕ → ℤ := fun a b =>
    conn a b +
      (if n ≤ a ∧ a < R ∧ b = ((steepest.getD (a - n) (0, 0)).2).toNat then 1
       else 0)
  let tb := (get_traps_boundaries traps cols rows).flatten
  let tbp := trap_boundary_pairs conn1 R tb
  let nodes_to_trap := tbp.map Prod.fst
  let counts := fun i : ℕ => ((traps.getD i []).map (fun u =>
    ((List.range R).filter (fun a => conn1 a u ≠ 0)).length)).sum
  let trap_indices := ((List.range T).map (fun i =>
    List.replicate (counts i) (n + i))).flatten
  let addPairs := nodes_to_trap.zip trap_indices
  let conn2 : ℕ → ℕ → ℤ := fun a b => conn1 a b + (addPairs.count (a, b) : ℤ)
  let conn3 : ℕ → ℕ → ℤ := fun a b =>
    conn2 a b -
      ((tbp.filter (fun q => q.1 = a ∧ tb.getD q.2 0 = b)).length : ℤ)
  let db := get_domain_boundary_indices cols rows
  fun a b => conn3 a b - (if b ∈ db ∧ conn3 a b ≠ 0 then 1 else 0)

/-- Rows appearing in `trap_boundary_pairs` have a nonzero entry in some
trap-boundary column (helper). -/
theorem trap_boundary_pairs_mem (conn1 : ℕ → ℕ → ℤ) (R : ℕ) (tb : List ℕ)
    (q : ℕ × ℕ) (hq : q ∈ trap_boundary_pairs conn1 R tb) :
    ∃ c ∈ tb, conn1 q.1 c ≠ 0 := by
  unfold trap_boundary_pairs at hq
  rw [List.mem_flatten] at hq
  obtain ⟨l, hl, hql⟩ := hq
  rw [List.mem_map] at hl
  obtain ⟨a, -, rfl⟩ := hl
  rw [List.mem_filterMap] at hql
  obtain ⟨p, hp, hpq⟩ := hql
  by_cases hc : conn1 a p.2 ≠ 0
  · rw [if_pos hc] at hpq
    have hq2 : q = (a, p.1) := (Option.some.inj hpq).symm
    have hmem : p.2 ∈ tb := by
      obtain ⟨i, w⟩ := p
      rw [List.mk_mem_enum_iff_getElem?] at hp
      exact List.getElem?_mem hp
    exact ⟨p.2, hmem, by rw [hq2]; exact hc⟩
  · rw [if_neg hc] at hpq
    exact Option.noConfusion hpq

set_option maxHeartbeats 1000000

/-- C4 (amended): in the final accumulation graph, a trap cell has zero
outgoing edges; and a trap super-node `k` whose spill target is not itself a
trap-boundary cell has exactly one outgoing edge — to the `to` cell of its
watershed's spill pair — UNLESS that `to` cell lies on the domain boundary,
in which case step (4) removes the super-node's only edge and it is left
with zero outgoing edges. -/
theorem reroute_trap_connections_spec (conn : ℕ → ℕ → ℤ) (rows cols : ℕ)
    (traps : List (List ℕ)) (steepest : List (ℤ × ℤ))
    (hrows : ∀ a b, rows * cols ≤ a → conn a b = 0)
    (hcells : ∀ u ∈ traps.flatten, u < rows * cols)
    (htrap : ∀ u ∈ traps.flatten, ∀ b, conn u b = 0)
    (k : ℕ) (hk : k < traps.length)
    (htb : ((steepest.getD k (0, 0)).2).toNat ∉
      (get_traps_boundaries traps cols rows).flatten) :
    (∀ u ∈ traps.flatten, ∀ b,
      reroute_trap_connections conn rows cols traps steepest u b = 0) ∧
    (((steepest.getD k (0, 0)).2).toNat ∉ get_domain_boundary_indices cols rows →
      (reroute_trap_connections conn rows cols traps steepest
          (rows * cols + k) (((steepest.getD k (0, 0)).2).toNat) = 1 ∧
        ∀ b, b ≠ ((steepest.getD k (0, 0)).2).toNat →
          reroute_trap_connections conn rows cols traps steepest
            (rows * cols + k) b = 0)) ∧
    (((steepest.getD k (0, 0)).2).toNat ∈ get_domain_boundary_indices cols rows →
      ∀ b, reroute_trap_connections conn rows cols traps steepest
        (rows * cols + k) b = 0) := by
  unfold reroute_trap_connections
  simp only []
  set n := rows * cols with hn
  set T := traps.length with hT
  set toN := ((steepest.getD k (0, 0)).2).toNat with htoN
  set conn1 : ℕ → ℕ → ℤ := fun a b =>
    conn a b +
      (if n ≤ a ∧ a < n + T ∧ b = ((steepest.getD (a - n) (0, 0)).2).toNat then 1
       else 0) with hconn1
  set tb := (get_traps_boundaries traps cols rows).flatten with htbdef
  set tbp := trap_boundary_pairs conn1 (n + T) tb with htbp
  -- row values of `conn1`
  have hc1trap : ∀ u ∈ traps.flatten, ∀ b, conn1 u b = 0 := by
    intro u hu b
    rw [hconn1]
    simp only []
    rw [htrap u hu b, if_neg (fun hcon => absurd (hcells u hu) (by omega))]
    simp
  have hc1super : ∀ b, conn1 (n + k) b = (if b = toN then 1 else 0) := by
    intro b
    rw [hconn1]
    simp only []
    rw [hrows _ _ (by omega)]
    have he : n + k - n = k := by omega
    by_cases hb : b = toN
    · rw [if_pos ⟨by omega, by omega, by rw [he, ← htoN]; exact hb⟩, hb]
      simp
    · rw [if_neg (fun hcon => hb (by rw [htoN, ← he]; exact hcon.2.2)), if_neg hb]
      simp
  -- neither a trap cell nor super-node `k` occurs among the rerouted rows
  have htbp_trap : ∀ u ∈ traps.flatten, ∀ q ∈ tbp, q.1 ≠ u := by
    intro u hu q hq he
    obtain ⟨c, -, hcne⟩ := trap_boundary_pairs_mem conn1 (n + T) tb q hq
    rw [he, hc1trap u hu c] at hcne
    exact hcne rfl
  have htbp_super : ∀ q ∈ tbp, q.1 ≠ n + k := by
    intro q hq he
    obtain ⟨c, hc, hcne⟩ := trap_boundary_pairs_mem conn1 (n + T) tb q hq
    rw [he, hc1super c] at hcne
    by_cases hcN : c = toN
    · rw [hcN] at hc
      exact htb hc
    · rw [if_neg hcN] at hcne
      exact hcne rfl
  -- rows untouched by steps (2) and (3) keep their `conn1` values
  have hkeep : ∀ a, (∀ q ∈ tbp, q.1 ≠ a) → ∀ b,
      (conn1 a b + ((((tbp.map Prod.fst).zip
          (((List.range T).map (fun i =>
            List.replicate (((traps.getD i []).map (fun u =>
              ((List.range (n + T)).filter (fun a2 => conn1 a2 u ≠ 0)).length)).sum)
            (n + i))).flatten)).count (a, b) : ℕ) : ℤ)) -
        (((tbp.filter (fun q => q.1 = a ∧ tb.getD q.2 0 = b)).length : ℕ) : ℤ) =
      conn1 a b := by
    intro a ha b
    have hcount : ((tbp.map Prod.fst).zip
        (((List.range T).map (fun i =>
          List.replicate (((traps.getD i []).map (fun u =>
            ((List.range (n + T)).filter (fun a2 => conn1 a2 u ≠ 0)).length)).sum)
          (n + i))).flatten)).count (a, b) = 0 := by
      rw [List.count_eq_zero]
      intro hmem
      have hfst := (List.of_mem_zip hmem).1
      rw [List.mem_map] at hfst
      obtain ⟨q, hq, hq1⟩ := hfst
      exact ha q hq hq1
    have hfilter : tbp.filter (fun q => q.1 = a ∧ tb.getD q.2 0 = b) = [] := by
      rw [List.filter_eq_nil_iff]
      intro q hq
      rw [decide_eq_true_eq]
      rintro ⟨h1, -⟩
      exact ha q hq h1
    rw [hcount, hfilter]
    simp
  refine ⟨?_, ?_, ?_⟩
  · -- trap cells have zero outgoing edges
    intro u hu b
    simp only [hkeep u (htbp_trap u hu) b, hc1trap u hu b]
    simp
  · -- spill target off the domain boundary: exactly the one edge
    intro hdb
    constructor
    · simp only [hkeep (n + k) htbp_super toN, hc1super toN]
      simp [hdb]
    · intro b hb
      simp only [hkeep (n + k) htbp_super b, hc1super b]
      simp [hb]
  · -- spill target on the domain boundary: the only edge is removed too
    intro hdb b
    simp only [hkeep (n + k) htbp_super b, hc1super b]
    by_cases hb : b = toN
    · subst hb
      simp [hdb]
    · simp [hb]

theorem reroute_trap_connections_spec_witness :
    (∀ a b : ℕ, 4 * 4 ≤ a → (fun _ _ : ℕ => (0 : ℤ)) a b = 0) ∧
    (∀ u ∈ ([[5]] : List (List ℕ)).flatten, u < 4 * 4) ∧
    (∀ u ∈ ([[5]] : List (List ℕ)).flatten, ∀ b : ℕ,
      (fun _ _ : ℕ => (0 : ℤ)) u b = 0) ∧
    ((0 : ℕ) < ([[5]] : List (List ℕ)).length) ∧
    (((([(5, 6)] : List (ℤ × ℤ)).getD 0 (0, 0)).2).toNat ∉
      (get_traps_boundaries [[5]] 4 4).flatten) ∧
    ((∀ u ∈ ([[5]] : List (List ℕ)).flatten, ∀ b,
        reroute_trap_connections (fun _ _ => (0 : ℤ)) 4 4 [[5]] [(5, 6)] u b = 0) ∧
      (((([(5, 6)] : List (ℤ × ℤ)).getD 0 (0, 0)).2).toNat ∉
          get_domain_boundary_indices 4 4 →
        (reroute_trap_connections (fun _ _ => (0 : ℤ)) 4 4 [[5]] [(5, 6)]
            (4 * 4 + 0) (((([(5, 6)] : List (ℤ × ℤ)).getD 0 (0, 0)).2).toNat) = 1 ∧
          ∀ b, b ≠ ((([(5, 6)] : List (ℤ × ℤ)).getD 0 (0, 0)).2).toNat →
            reroute_trap_connections (fun _ _ => (0 : ℤ)) 4 4 [[5]] [(5, 6)]
              (4 * 4 + 0) b = 0)) ∧
      (((([(5, 6)] : List (ℤ × ℤ)).getD 0 (0, 0)).2).toNat ∈
          get_domain_boundary_indices 4 4 →
        ∀ b, reroute_trap_connections (fun _ _ => (0 : ℤ)) 4 4 [[5]] [(5, 6)]
          (4 * 4 + 0) b = 0)) :=
  ⟨fun _ _ _ => rfl, by decide, fun u _ b => rfl, by decide, by decide,
    reroute_trap_connections_spec (fun _ _ => (0 : ℤ)) 4 4 [[5]] [(5, 6)]
      (fun _ _ _ => rfl) (by decide) (fun u _ b => rfl) 0 (by decide) (by decide)⟩

/-- The accumulation-graph construction of `save_flow_accumulation.py` up to
and including `reroute_trap_connections`: fill the raster, compute
watersheds, spill pairs and traps, raise the traps
(`make_landscape_depressionless`), recompute the flow field, reset the flow
of every trap cell to `-1`, build the node connectivity matrix, append the
trap super-nodes, and reroute (`calculate_nr_of_upslope_cells`, steps up to
the rerouted matrix).  Without spill pairs the graph of the bare flow field
is returned. -/
def accumulation_graph (h : Heights α) (step : α) (ny nx : ℕ) (d4 : Bool) :
    ℕ → ℕ → ℤ :=
  let h1 := fill_single_cell_depressions h ny nx
  let wsf := calculate_watersheds h1 nx ny step d4
  match get_spill_heights wsf.1 h1 wsf.2.1 ny nx with
  | none => make_sparse_node_conn_matrix (get_flow_direction_indices h1 step ny nx d4) ny nx
  | some sh =>
    let traps := (get_all_traps wsf.1 h1 sh).1
    let h2 := make_depressionless h step ny nx d4
    let flow := get_flow_direction_indices h2 step ny nx d4
    let flow2 := traps.flatten.foldl (fun f u => f.set u (some (-1))) flow
    let conn := make_sparse_node_conn_matrix flow2 ny nx
    reroute_trap_connections (expand_conn_mat conn traps.length) ny nx traps wsf.2.1

set_option maxRecDepth 1000000

/-- The flow field the accumulation pipeline computes for `ceH` (the
depressionless raster's flow with the trap cells 8, 17, 11 reset to the pit
sentinel). -/
def accFlowLit : List (Option ℤ) :=
  [none, none, none, none, none,
   none, some (-1), some 8, some (-1), none,
   none, some (-1), some 17, some (-1), none,
   none, some 17, some (-1), some (-1), none,
   none, none, none, none, none]

/-- On `ceH` the accumulation pipeline produces this flow field, the traps
`[[8, 17], [11]]` and the spill pairs `[(8, 3), (11, 12)]` (helper,
established by kernel evaluation of the whole pipeline). -/
theorem accumulation_graph_eq_lit :
    accumulation_graph ceH (10 : ℤ) 5 5 true =
      reroute_trap_connections
        (expand_conn_mat (make_sparse_node_conn_matrix accFlowLit 5 5) 2)
        5 5 [[8, 17], [11]] [(8, 3), (11, 12)] := rfl

/-- Row 25 — the super-node of the trap `[8, 17]`, whose spill pair is
`(8, 3)` — is identically zero after rerouting (helper). -/
theorem acc_lit_row_zero : ∀ j, j < 27 →
    reroute_trap_connections
      (expand_conn_mat (make_sparse_node_conn_matrix accFlowLit 5 5) 2)
      5 5 [[8, 17], [11]] [(8, 3), (11, 12)] 25 j = 0 := by decide

/-- C4: counterexample — a trap super-node can end with ZERO outgoing edges
rather than exactly one.  On the raster `ceH` the first watershed's spill
pair is `(8, 3)`; its target, cell 3, lies on the domain boundary, so the
final step of `reroute_trap_connections` removes the super-node's only
outgoing edge: row `25 = 5·5 + 0` of the final accumulation graph is
identically zero. -/
theorem acc_supernode_loses_edge :
    (calculate_watersheds (fill_single_cell_depressions ceH 5 5) 5 5
        (10 : ℤ) true).2.1.getD 0 (0, 0) = ((8 : ℤ), (3 : ℤ)) ∧
    (3 : ℕ) ∈ get_domain_boundary_indices 5 5 ∧
    (∀ j, j < 27 → accumulation_graph ceH (10 : ℤ) 5 5 true 25 j = 0) := by
  refine ⟨by decide, by decide, ?_⟩
  intro j hj
  rw [accumulation_graph_eq_lit]
  exact acc_lit_row_zero j hj

end WatershedV2
